import Mathlib

/-
Verification of the indexing and synchronization engine of pyeverything
(src/py_everything/core/indexer.py, scanner.py, watcher.py).

The sqlite database is modelled shallowly: the files table is a list of
rows, the external-content FTS5 table files_fts is a list of
(rowid, name) associations held by the full-text index, and
indexed_paths is a list of root paths.  Modification times are
modelled as integers (the source holds REAL seconds; every comparison the
code performs on them is translated unchanged).  sqlite behaviours that the code relies on are modelled as
documented and as observed on sqlite 3.40:
 - INSERT assigns rowid = (largest rowid currently in the table) + 1;
 - INSERT OR REPLACE deletes a conflicting row WITHOUT firing the
   AFTER DELETE trigger (recursive_triggers is off by default), and the
   fresh rowid is chosen while the conflicting row is still present;
 - a LIKE pattern built as path + percent is matched with sqlite LIKE
   semantics: ASCII letters compare case-insensitively, percent in the
   path matches any run of characters and underscore any single
   character (verified on sqlite 3.40: DELETE WHERE path LIKE
   the pattern of /data deletes /DATA2/file.txt, and /a_b deletes
   /aXb/f);
 - on an error inside a transaction, rollback restores the state as of
   the last commit;
 - an FTS5 MATCH whose query has no term before the trailing star is a
   syntax error raised to the caller.
-/

namespace PyEverything

/-- Row of the files table created by init_db: id INTEGER PRIMARY KEY,
path TEXT UNIQUE, name TEXT, type TEXT, size INTEGER, mtime REAL. -/
structure FileRecord where
  id : Nat
  path : String
  name : String
  type : String
  size : Nat
  mtime : Int
deriving DecidableEq, Repr

/-- State of one database: the files rows, the associations currently
recorded in the FTS5 full-text index (rowid paired with the name text
whose tokens it indexes), and the indexed_paths management table. -/
structure DB where
  files : List FileRecord
  files_fts : List (Nat × String)
  indexed_paths : List String
deriving DecidableEq, Repr

/-- Rowid that sqlite assigns to an INSERT that does not specify the id
column: one more than the largest rowid currently in the table. -/
def nextId (db : DB) : Nat := (db.files.map FileRecord.id).foldl max 0 + 1

/-- sqlite's default LIKE case folding: the 26 upper-case ASCII letters
compare equal to their lower-case forms; every other character,
including non-ASCII letters, is compared exactly. -/
def charLower (c : Char) : Char :=
  if 65 ≤ c.toNat ∧ c.toNat ≤ 90 then Char.ofNat (c.toNat + 32) else c

/-- All suffixes of a character list, longest first: the candidate
remainders a percent wildcard can leave behind. -/
def tailsOf : List Char → List (List Char)
  | [] => [[]]
  | c :: cs => (c :: cs) :: tailsOf cs

/-- Remainders of the subject that can be left over once the pattern
characters are consumed, per sqlite LIKE: a percent matches any run of
characters, an underscore matches exactly one character, and any other
character matches one character equal to it up to ASCII case. -/
def likeRem : List Char → List Char → List (List Char)
  | [], s => [s]
  | '%' :: ps, s => ((tailsOf s).map (fun t => likeRem ps t)).flatten
  | '_' :: ps, s =>
    match s with
    | [] => []
    | _ :: cs => likeRem ps cs
  | c :: ps, s =>
    match s with
    | [] => []
    | d :: cs => if charLower c == charLower d then likeRem ps cs else []

/-- The WHERE path LIKE 'p' plus percent filter used by sync_changes,
clear_index and remove_indexed_path: sqlite LIKE semantics for the
pattern p followed by a trailing percent.  The trailing percent accepts
any remainder, so the pattern matches exactly when some remainder
survives the characters of p; there is no path-segment boundary check,
ASCII case is folded, and percent and underscore inside p act as
wildcards. -/
def likeMatch (p s : String) : Bool :=
  !(likeRem p.toList s.toList).isEmpty

/-- Effect of the files_after_insert trigger: INSERT INTO
files_fts(rowid, name) records the association of the new row's name
tokens with its rowid. -/
def ftsAfterInsert (fts : List (Nat × String)) (i : Nat) (n : String) :
    List (Nat × String) :=
  fts ++ [(i, n)]

/-- Effect of the files_after_delete trigger: the FTS5 external-content
delete command removes the association of the given name with the given
rowid from the index. -/
def ftsAfterDelete (fts : List (Nat × String)) (i : Nat) (n : String) :
    List (Nat × String) :=
  fts.filter (fun e => !(e == (i, n)))

/-- DELETE FROM files WHERE p, firing the files_after_delete trigger
once for every removed row. -/
def deleteWhere (db : DB) (p : FileRecord → Bool) : DB :=
  { db with
    files := db.files.filter (fun r => !(p r)),
    files_fts :=
      (db.files.filter p).foldl (fun f r => ftsAfterDelete f r.id r.name)
        db.files_fts }

/-- add_document: INSERT OR REPLACE INTO files.  A conflicting row with
the same path is deleted without firing the delete trigger (sqlite only
fires delete triggers for REPLACE conflict resolution when
recursive_triggers is enabled, which is off by default), the fresh rowid
is chosen while the conflicting row is still present, and the insert
trigger fires for the new row. -/
def add_document (db : DB) (path name doc_type : String) (size : Nat)
    (mtime : Int) : DB :=
  let i := nextId db
  { db with
    files := db.files.filter (fun r => !(r.path == path)) ++
      [⟨i, path, name, doc_type, size, mtime⟩],
    files_fts := ftsAfterInsert db.files_fts i name }

/-- delete_document: DELETE FROM files WHERE path = the given path; the
delete trigger removes the full-text association of each removed row. -/
def delete_document (db : DB) (path : String) : DB :=
  deleteWhere db (fun r => r.path == path)

/-- clear_index: with a path, DELETE FROM files WHERE path LIKE the
path-plus-percent pattern; without one, delete every files row and
every indexed_paths row.  Delete triggers fire per removed row. -/
def clear_index (db : DB) (p : Option String) : DB :=
  match p with
  | some pre => deleteWhere db (fun r => likeMatch pre r.path)
  | none => { deleteWhere db (fun _ => true) with indexed_paths := [] }

/-- add_indexed_path: INSERT OR IGNORE INTO indexed_paths. -/
def add_indexed_path (db : DB) (path : String) : DB :=
  if path ∈ db.indexed_paths then db
  else { db with indexed_paths := db.indexed_paths ++ [path] }

/-- remove_indexed_path: delete the root from indexed_paths, then
DELETE FROM files WHERE path LIKE the path-plus-percent pattern. -/
def remove_indexed_path (db : DB) (path : String) : DB :=
  deleteWhere
    { db with indexed_paths := db.indexed_paths.filter (fun q => !(q == path)) }
    (fun r => likeMatch path r.path)

/-- One element of the documents argument of add_documents_batch: a
5-tuple denotes a fresh insert, a 6-tuple carries the id of the row to
update in place. -/
inductive BatchDoc where
  | newDoc (path name doc_type : String) (size : Nat) (mtime : Int)
  | updDoc (id : Nat) (path name doc_type : String) (size : Nat) (mtime : Int)
deriving DecidableEq, Repr

/-- Tuple-length test used by add_documents_batch to split the batch. -/
def BatchDoc.isNew : BatchDoc → Bool
  | .newDoc .. => true
  | .updDoc .. => false

/-- Plain INSERT INTO files of one row: fails with an IntegrityError
when the UNIQUE constraint on path is violated; otherwise the row is
added with a fresh rowid and the insert trigger fires. -/
def insertDoc (db : DB) (path name doc_type : String) (size : Nat)
    (mtime : Int) : Except Unit DB :=
  if db.files.any (fun r => r.path == path) then .error ()
  else
    let i := nextId db
    .ok { db with
      files := db.files ++ [⟨i, path, name, doc_type, size, mtime⟩],
      files_fts := ftsAfterInsert db.files_fts i name }

/-- UPDATE files SET path, name, type, size, mtime WHERE id = the given
id.  No matching row updates nothing; a matching row fails when the new
path collides with a different row's path, and otherwise is rewritten
in place, the update trigger replacing its full-text association.  The
id column is the primary key, so at most one row matches. -/
def updateDoc (db : DB) (i : Nat) (path name doc_type : String)
    (size : Nat) (mtime : Int) : Except Unit DB :=
  match db.files.find? (fun r => r.id == i) with
  | none => .ok db
  | some old =>
    if db.files.any (fun r => !(r.id == i) && r.path == path) then .error ()
    else
      .ok { db with
        files := db.files.map (fun r =>
          if r.id == i then ⟨i, path, name, doc_type, size, mtime⟩ else r),
        files_fts :=
          ftsAfterInsert (ftsAfterDelete db.files_fts i old.name) i name }

/-- Execution of one batch element as one SQL statement. -/
def execDoc (db : DB) : BatchDoc → Except Unit DB
  | .newDoc p n t s m => insertDoc db p n t s m
  | .updDoc i p n t s m => updateDoc db i p n t s m

/-- Body of the try block of add_documents_batch: executemany of the
INSERT over the 5-tuples, then executemany of the UPDATE over the
6-tuples.  Statements run sequentially and the first failure aborts the
rest of the batch. -/
def applyBatch (db : DB) (docs : List BatchDoc) : Except Unit DB :=
  (docs.filter BatchDoc.isNew ++ docs.filter (fun d => !d.isNew)).foldlM
    execDoc db

/-- add_documents_batch: the batch runs inside one transaction; on
success it is committed, and on any sqlite3.Error the transaction is
rolled back and the exception is caught and printed, never re-raised.
The Boolean records whether an error was caught; the function always
returns normally to its caller.  The connection is taken to have no
transaction pending at entry (sync_changes, which calls this helper
with uncommitted deletions pending, is modelled separately). -/
def add_documents_batch (db : DB) (docs : List BatchDoc) : DB × Bool :=
  match applyBatch db docs with
  | .ok d => (d, false)
  | .error _ => (db, true)

/-- Tokens of a text under the ASCII fragment of the default FTS5
unicode61 tokenizer: maximal runs of alphanumeric characters.  The
accumulator holds the characters of the current run in reverse. -/
def tokenAux : List Char → List Char → List String
  | [], acc => if acc.isEmpty then [] else [acc.reverse.asString]
  | c :: cs, acc =>
    if c.isAlphanum then tokenAux cs (c :: acc)
    else if acc.isEmpty then tokenAux cs []
    else acc.reverse.asString :: tokenAux cs []

/-- Tokenization of one name or query text. -/
def tokenize (s : String) : List String := tokenAux s.toList []

/-- FTS5 parse of the string search hands to MATCH, namely the user
query followed by a star.  The model covers queries made of
alphanumeric characters and spaces: whitespace-separated barewords are
terms, implicitly ANDed, and the trailing star turns the final bareword
into a prefix term.  A query whose star does not directly follow a
bareword character is a syntax error, as observed: an empty query gives
the invalid match text consisting only of a star, and any other
character is outside the modelled fragment and likewise an error. -/
def parseQuery (q : String) : Except Unit (List String) :=
  if q.toList.all (fun c => c.isAlphanum || c == ' ') then
    match q.toList.getLast? with
    | some c => if c.isAlphanum then .ok (tokenize q) else .error ()
    | none => .error ()
  else .error ()

/-- Token list the FTS5 index currently associates with a rowid: the
tokens of every name association recorded for that rowid. -/
def ftsTokens (fts : List (Nat × String)) (i : Nat) : List String :=
  ((fts.filter (fun e => e.1 == i)).map (fun e => tokenize e.2)).flatten

/-- MATCH test of parsed terms against a token list: every non-final
term occurs as a token, and some token starts with the final (prefix)
term. -/
def termsMatch (terms toks : List String) : Bool :=
  terms.dropLast.all (fun t => toks.contains t) &&
    (match terms.getLast? with
     | some t => toks.any (fun w => t.toList.isPrefixOf w.toList)
     | none => false)

/-- MATCH test of one rowid against the parsed terms, over the tokens
the index associates with that rowid. -/
def rowidMatches (fts : List (Nat × String)) (terms : List String)
    (i : Nat) : Bool :=
  termsMatch terms (ftsTokens fts i)

/-- LIMIT clause application: the Python code adds a LIMIT only when the
limit argument is truthy, so None and 0 both return every row; sqlite
treats a negative LIMIT as no limit. -/
def applyLimit (limit : Option Int) (rows : List FileRecord) :
    List FileRecord :=
  match limit with
  | none => rows
  | some l => if l ≤ 0 then rows else rows.take l.toNat

/-- search(query_str, limit): appends a star to the query and runs the
files join files_fts MATCH query; a malformed match text raises an
OperationalError to the caller (there is no guard for an empty query in
this method).  Row order is modelled as table order; the source orders
by the engine's relevance rank, on which no claim here depends. -/
def search (db : DB) (query_str : String) (limit : Option Int) :
    Except Unit (List FileRecord) :=
  match parseQuery query_str with
  | .error e => .error e
  | .ok terms =>
    .ok (applyLimit limit
      (db.files.filter (fun r => rowidMatches db.files_fts terms r.id)))

/-- Stat result of one live path, as observed by the watcher after its
settling delay: none models a path that no longer exists (or whose stat
raises), some carries the fresh metadata. -/
structure StatInfo where
  isDir : Bool
  size : Nat
  mtime : Int
deriving DecidableEq, Repr

/-- os.path.basename for slash-separated paths: the part after the last
slash. -/
def basename (p : String) : String :=
  ((p.toList.foldl (fun acc c =>
    if c == '/' then [] else c :: acc) []).reverse).asString

/-- The _add_item_action handler of the watcher: after the 100 ms
settling sleep the path is re-stated (fs gives the post-delay view of
the filesystem); a vanished path drops the event silently, otherwise a
single record for the path is upserted with the fresh metadata via
add_document.  Any exception raised inside is caught and printed. -/
def add_item_action (db : DB) (fs : String → Option StatInfo)
    (path : String) : DB :=
  match fs path with
  | none => db
  | some st =>
    add_document db path (basename path)
      (if st.isDir then "folder" else "file")
      (if st.isDir then 0 else st.size) st.mtime

/-- on_created and on_modified both run the add action on the event
path. -/
def on_created (db : DB) (fs : String → Option StatInfo) (path : String) :
    DB :=
  add_item_action db fs path

/-- on_deleted: delete the record at the event path without a stat. -/
def on_deleted (db : DB) (path : String) : DB := delete_document db path

/-- on_moved: delete the record at the source path, then run the
create/modify add action for the destination path. -/
def on_moved (db : DB) (fs : String → Option StatInfo)
    (src dest : String) : DB :=
  add_item_action (delete_document db src) fs dest

/-- Filesystem node for the walk model underlying sync_changes: a named
file or directory.  statOk false models a per-entry stat failure
(OSError or PermissionError), which skips the entry without aborting
the walk; the entry still exists and is still listed by its parent. -/
inductive FSTree where
  | file (name : String) (size : Nat) (mtime : Int) (statOk : Bool)
  | dir (name : String) (mtime : Int) (statOk : Bool)
      (children : List FSTree)

/-- Name component of a node. -/
def FSTree.name : FSTree → String
  | .file n _ _ _ => n
  | .dir n _ _ _ => n

/-- One entry of the walk of sync_changes, as the loop body sees it:
the joined path, the item name, the isdir test, the raw stat data and
whether the stat succeeded. -/
structure WalkItem where
  path : String
  name : String
  isDir : Bool
  size : Nat
  mtime : Int
  statOk : Bool
deriving DecidableEq, Repr

/-- Walk entry of one node listed under a directory path. -/
def FSTree.itemUnder (dirpath : String) : FSTree → WalkItem
  | .file n sz m ok =>
    ⟨dirpath ++ "/" ++ n, n, false, sz, m, ok⟩
  | .dir n m ok _ =>
    ⟨dirpath ++ "/" ++ n, n, true, 0, m, ok⟩

mutual

/-- Entries produced for the subtree of one node by the os.walk loop of
sync_changes: every directory yields its children joined to its path
(dirnames and filenames of one triple), then the walk descends; the
walked root itself is never an entry, and walking a non-directory
yields nothing. -/
def walkItems (pfx : String) : FSTree → List WalkItem
  | .file _ _ _ _ => []
  | .dir _ _ _ cs =>
    cs.map (fun c => c.itemUnder pfx) ++ walkChildren pfx cs

/-- Walk continuation over the children of a directory at the given
path. -/
def walkChildren (pfx : String) : List FSTree → List WalkItem
  | [] => []
  | c :: cs => walkItems (pfx ++ "/" ++ c.name) c ++ walkChildren pfx cs

end

/-- Stored view sync_changes reads first: SELECT path, mtime, id FROM
files WHERE path LIKE the path-plus-percent pattern, as a lookup from
path to the pair of mtime and id.  Paths are unique in the table, so
the first matching row is the row. -/
def dbFilesLookup (db : DB) (scan_path p : String) :
    Option (Int × Nat) :=
  ((db.files.filter (fun r => likeMatch scan_path r.path)).find?
    (fun r => r.path == p)).map (fun r => (r.mtime, r.id))

/-- 5-tuple the walk loop builds for an entry absent from the stored
view: path, name, folder-or-file, size (0 for folders), mtime. -/
def WalkItem.asNewDoc (it : WalkItem) : BatchDoc :=
  .newDoc it.path it.name (if it.isDir then "folder" else "file")
    (if it.isDir then 0 else it.size) it.mtime

/-- 6-tuple the walk loop builds for a changed entry, carrying the
stored id for the replace-in-place update. -/
def WalkItem.asUpdDoc (i : Nat) (it : WalkItem) : BatchDoc :=
  .updDoc i it.path it.name (if it.isDir then "folder" else "file")
    (if it.isDir then 0 else it.size) it.mtime

/-- Walk-loop body of sync_changes for one entry: a stat failure is
skipped, an entry absent from the stored view becomes a 5-tuple
insert, an entry whose stored mtime differs by strictly more than the
1 second tolerance becomes a 6-tuple update carrying the stored id,
and an entry within tolerance produces nothing. -/
def syncDocOf (db : DB) (scan_path : String) (it : WalkItem) :
    Option BatchDoc :=
  if !it.statOk then none
  else
    match dbFilesLookup db scan_path it.path with
    | none => some it.asNewDoc
    | some (m0, i) =>
      if (it.mtime - m0).natAbs > 1 then some (it.asUpdDoc i)
      else none

/-- Batch the walk loop of sync_changes accumulates over the walk
entries. -/
def sync_to_add_or_update (db : DB) (scan_path : String)
    (items : List WalkItem) : List BatchDoc :=
  items.filterMap (syncDocOf db scan_path)

/-- Deleted set of sync_changes: stored paths matching the LIKE pattern
that the walk did not list (the walk records every listed entry in
fs_files before trying to stat it, so a stat failure never marks
deletion). -/
def sync_deleted_paths (db : DB) (scan_path : String)
    (items : List WalkItem) : List String :=
  ((db.files.filter (fun r => likeMatch scan_path r.path)).map
    (fun r => r.path)).filter (fun p => !(items.map WalkItem.path).contains p)

/-- sync_changes over the walk entries: read the stored view, build the
batch and the deleted set, DELETE the deleted paths (firing delete
triggers), then run add_documents_batch, whose commit also commits the
deletions and whose rollback on a batch error also undoes the still
uncommitted deletions, restoring the state at entry. -/
def sync_changes (db : DB) (scan_path : String) (items : List WalkItem) :
    DB :=
  if (sync_to_add_or_update db scan_path items).isEmpty then
    (if (sync_deleted_paths db scan_path items).isEmpty then db
     else deleteWhere db
       (fun r => (sync_deleted_paths db scan_path items).contains r.path))
  else
    match applyBatch
        (if (sync_deleted_paths db scan_path items).isEmpty then db
         else deleteWhere db
           (fun r => (sync_deleted_paths db scan_path items).contains r.path))
        (sync_to_add_or_update db scan_path items) with
    | .ok d => d
    | .error _ => db

/-- sync_changes run against a filesystem tree: the walk items are the
entries os.walk lists under the scan path. -/
def sync_changes_fs (db : DB) (scan_path : String) (t : FSTree) : DB :=
  sync_changes db scan_path (walkItems scan_path t)

/-- The pair an FTS association holds for one row. -/
def pairOf (r : FileRecord) : Nat × String := (r.id, r.name)

/-- Path column of one batch element. -/
def BatchDoc.docPath : BatchDoc → String
  | .newDoc p _ _ _ _ => p
  | .updDoc _ p _ _ _ _ => p

/-- Target row id of a 6-tuple batch element (unused for inserts). -/
def BatchDoc.updId : BatchDoc → Nat
  | .newDoc _ _ _ _ _ => 0
  | .updDoc i _ _ _ _ _ => i

/-- Column values of one batch element. -/
def BatchDoc.fields : BatchDoc → String × String × String × Nat × Int
  | .newDoc p n t s m => (p, n, t, s, m)
  | .updDoc _ p n t s m => (p, n, t, s, m)

/-- Column values of one stored row. -/
def recFields (r : FileRecord) : String × String × String × Nat × Int :=
  (r.path, r.name, r.type, r.size, r.mtime)

/-- Whether a batch element is an update targeting the given row id. -/
def BatchDoc.targets : BatchDoc → Nat → Bool
  | .newDoc _ _ _ _ _, _ => false
  | .updDoc i _ _ _ _ _, j => i == j

/-- Row of the files table after the UPDATE statements of a batch ran:
the first update targeting the row's id rewrites its columns in place
(the id column is never written). -/
def applyUpd (upds : List BatchDoc) (r : FileRecord) : FileRecord :=
  match upds.find? (fun d => d.targets r.id) with
  | some (.updDoc _ p n t s m) => ⟨r.id, p, n, t, s, m⟩
  | _ => r

/-- Concrete store for the boundary claims: a record whose path is not
inside the root /data on path-segment boundaries yet shares it as a
raw string prefix, and a record sharing it only up to ASCII case. -/
def dbBoundary : DB :=
  ⟨[⟨1, "/data2/file.txt", "file.txt", "file", 5, 10⟩,
    ⟨2, "/DATA2/file.txt", "FILE.TXT", "file", 5, 10⟩],
    [(1, "file.txt"), (2, "FILE.TXT")], ["/data", "/data2"]⟩

/-- Concrete store whose record path does not contain the root /a_b as
a raw substring at all, yet matches it as a LIKE pattern: the
underscore is a single-character wildcard. -/
def dbWild : DB :=
  ⟨[⟨1, "/aXb/f.txt", "f.txt", "file", 1, 0⟩], [(1, "f.txt")], ["/a_b"]⟩

/-- Concrete store with a record wholly unrelated to the root /data. -/
def dbUnrelated : DB :=
  ⟨[⟨1, "/other/f.txt", "f.txt", "file", 1, 0⟩], [(1, "f.txt")], ["/data"]⟩

/-- Concrete store holding the path /a, against which a batch whose
second insert reuses /a fails. -/
def dbDup : DB := ⟨[⟨1, "/a", "a", "file", 1, 1⟩], [(1, "a")], []⟩

/-- Batch whose first insert succeeds and whose second violates the
UNIQUE constraint on path. -/
def docsDup : List BatchDoc :=
  [.newDoc "/ok" "ok" "file" 1 1, .newDoc "/a" "dup" "file" 1 1]

/-- Trace for the full-text invariant: five batch inserts, a replacing
add_document on the fifth path, a delete of the replacement, and a
fresh add_document whose insert reuses the freed rowid 5 under the
original name. -/
def c5db1 : DB := (add_documents_batch ⟨[], [], []⟩
  [.newDoc "/r/p1" "alpha" "file" 10 100,
   .newDoc "/r/p2" "beta" "file" 10 100,
   .newDoc "/r/p3" "gamma" "file" 10 100,
   .newDoc "/r/p4" "delta" "file" 10 100,
   .newDoc "/r/p5" "echo" "file" 10 100]).1

/-- Replacing upsert: the old row 5 is dropped without its delete
trigger, its full-text association survives, and the new row gets
rowid 6. -/
def c5db2 : DB := add_document c5db1 "/r/p5" "xray" "file" 20 200

/-- Delete of the replacement row. -/
def c5db3 : DB := delete_document c5db2 "/r/p5"

/-- Fresh insert at a new path: sqlite reuses rowid 5, and the name
echo now has two index associations with rowid 5. -/
def c5db4 : DB := add_document c5db3 "/r/p6" "echo" "file" 30 300

/-- Small well-formed store used to witness the preservation
theorems. -/
def dbSmall : DB := ⟨[⟨1, "/a/x", "x", "file", 1, 5⟩], [(1, "x")], ["/a"]⟩

/-- Filesystem tree for the consistency scenarios: the scanned root
holds one healthy file and one file whose stat fails. -/
def fsTree3 : FSTree :=
  .dir "r" 50 true
    [.file "a.txt" 5 60 true, .file "bad.txt" 7 70 false]

/-- Store before the sync of fsTree3: the root directory itself has a
record (as a full scan creates), and the stat-failing file is already
stored. -/
def dbSync3 : DB :=
  ⟨[⟨1, "/r", "r", "folder", 0, 50⟩,
    ⟨2, "/r/bad.txt", "bad.txt", "file", 7, 70⟩],
   [(1, "r"), (2, "bad.txt")], ["/r"]⟩

/-- Store for the tolerance scenario: two stored files under /r. -/
def dbTol : DB :=
  ⟨[⟨1, "/r/x.txt", "x.txt", "file", 4, 60⟩,
    ⟨2, "/r/y.txt", "y.txt", "file", 9, 50⟩],
   [(1, "x.txt"), (2, "y.txt")], ["/r"]⟩

/-- Live tree for the tolerance scenario: x.txt drifted by exactly one
second, y.txt by fifty. -/
def fsTreeTol : FSTree :=
  .dir "r" 50 true
    [.file "x.txt" 4 61 true, .file "y.txt" 9 100 true]

/-- Store for the rename scenario: two records under the root /r. -/
def dbMove : DB :=
  ⟨[⟨1, "/r/other.txt", "other.txt", "file", 5, 50⟩,
    ⟨2, "/r/notes.txt", "notes.txt", "file", 120, 100⟩],
   [(1, "other.txt"), (2, "notes.txt")], ["/r"]⟩

/-- Post-settling filesystem view for the rename scenario: only the
destination of the move exists, with the size the file had before. -/
def fsMove : String → Option StatInfo := fun p =>
  if p == "/r/notes2.txt" then some ⟨false, 120, 200⟩ else none

/-- UNIQUE constraint of the path column. -/
def uniquePaths (db : DB) : Prop := (db.files.map FileRecord.path).Nodup

/-- Primary-key property of the id column. -/
def uniqueIds (db : DB) : Prop := (db.files.map FileRecord.id).Nodup

/-- Exactness of the full-text index: its associations are exactly one
per stored row, carrying the row's id and current name. -/
def ftsExact (db : DB) : Prop := (db.files.map pairOf).Perm db.files_fts

/-- Well-formedness sqlite maintains for a database in which the
full-text index has never been corrupted. -/
def goodDB (db : DB) : Prop := uniquePaths db ∧ uniqueIds db ∧ ftsExact db

/-- Full-text invariant as the specification states it: every stored
record has exactly one full-text association for its id, and that
association carries the record's current name. -/
def ftsInvariant (db : DB) : Prop :=
  ∀ r ∈ db.files, db.files_fts.filter (fun e => e.1 == r.id) = [(r.id, r.name)]

instance (db : DB) : Decidable (goodDB db) := by
  unfold goodDB uniquePaths uniqueIds ftsExact
  infer_instance

instance (db : DB) : Decidable (ftsInvariant db) := by
  unfold ftsInvariant
  infer_instance

section ListHelpers

theorem le_foldl_max (l : List Nat) (a : Nat) : a ≤ l.foldl max a := by
  induction l generalizing a with
  | nil => exact Nat.le_refl a
  | cons b t ih => exact le_trans (le_max_left a b) (ih (max a b))

theorem mem_le_foldl_max (l : List Nat) (a x : Nat) (h : x ∈ l) :
    x ≤ l.foldl max a := by
  induction l generalizing a with
  | nil => cases h
  | cons b t ih =>
    rcases List.mem_cons.mp h with rfl | hx
    · exact le_trans (le_max_right a x) (le_foldl_max t (max a x))
    · exact ih (max a b) hx

/-- A fresh rowid is strictly larger than every rowid in the table. -/
theorem nextId_gt (db : DB) (r : FileRecord) (h : r ∈ db.files) :
    r.id < nextId db :=
  Nat.lt_succ_of_le
    (mem_le_foldl_max (db.files.map FileRecord.id) 0 r.id
      (List.mem_map_of_mem FileRecord.id h))

/-- Members of a list whose ids are pairwise distinct are determined by
their id. -/
theorem id_injective (l : List FileRecord)
    (h : (l.map FileRecord.id).Nodup) (r s : FileRecord)
    (hr : r ∈ l) (hs : s ∈ l) (he : r.id = s.id) : r = s :=
  List.inj_on_of_nodup_map h hr hs he

/-- Members of a list whose pairs are pairwise distinct in id are
determined by their pair. -/
theorem pair_injective (l : List FileRecord)
    (h : (l.map FileRecord.id).Nodup) (r s : FileRecord)
    (hr : r ∈ l) (hs : s ∈ l) (he : pairOf r = pairOf s) : r = s :=
  id_injective l h r s hr hs (congrArg Prod.fst he)

theorem pair_contains_iff (l : List (Nat × String)) (a : Nat × String) :
    l.contains a = true ↔ a ∈ l := by simp

end ListHelpers

section Preservation

theorem foldl_ftsAfterDelete (rs : List FileRecord)
    (b : List (Nat × String)) :
    rs.foldl (fun f r => ftsAfterDelete f r.id r.name) b =
      b.filter (fun e => !((rs.map pairOf).contains e)) := by
  induction rs generalizing b with
  | nil => simp
  | cons r rs ih =>
    show rs.foldl _ (ftsAfterDelete b r.id r.name) = _
    rw [ih]
    unfold ftsAfterDelete
    rw [List.filter_filter]
    refine List.filter_congr fun e _ => ?_
    simp only [pairOf, List.map_cons, List.contains_cons, Bool.not_or]
    exact Bool.and_comm _ _

theorem deleteWhere_files (db : DB) (p : FileRecord → Bool) :
    (deleteWhere db p).files = db.files.filter (fun r => !(p r)) := rfl

theorem deleteWhere_fts (db : DB) (p : FileRecord → Bool) :
    (deleteWhere db p).files_fts =
      db.files_fts.filter
        (fun e => !(((db.files.filter p).map pairOf).contains e)) :=
  foldl_ftsAfterDelete _ _

theorem deleteWhere_good (db : DB) (p : FileRecord → Bool)
    (hg : goodDB db) : goodDB (deleteWhere db p) := by
  obtain ⟨hp, hi, hf⟩ := hg
  refine ⟨hp.sublist ((List.filter_sublist _).map _),
    hi.sublist ((List.filter_sublist _).map _), ?_⟩
  rw [ftsExact, deleteWhere_files, deleteWhere_fts]
  have h1 := hf.filter
    (fun e => !(((db.files.filter p).map pairOf).contains e))
  rw [List.filter_map] at h1
  refine List.Perm.trans (List.Perm.of_eq ?_) h1
  refine congrArg (List.map pairOf) (List.filter_congr fun r hr => ?_).symm
  have hkey : ((db.files.filter p).map pairOf).contains (pairOf r) = p r := by
    by_cases hpr : p r = true
    · rw [hpr]
      exact (pair_contains_iff _ _).mpr
        (List.mem_map_of_mem pairOf (List.mem_filter.mpr ⟨hr, hpr⟩))
    · rw [Bool.eq_false_iff.mpr hpr, Bool.eq_false_iff]
      intro hcon
      obtain ⟨s, hs, hse⟩ := List.mem_map.mp ((pair_contains_iff _ _).mp hcon)
      obtain ⟨hsmem, hsp⟩ := List.mem_filter.mp hs
      exact hpr (pair_injective db.files hi s r hsmem hr hse ▸ hsp)
  simp only [Function.comp_apply, hkey]

theorem insertDoc_ok (db : DB) (path name doc_type : String) (size : Nat)
    (mtime : Int) (h : db.files.any (fun r => r.path == path) = false) :
    insertDoc db path name doc_type size mtime =
      .ok { db with
        files := db.files ++ [⟨nextId db, path, name, doc_type, size, mtime⟩],
        files_fts := ftsAfterInsert db.files_fts (nextId db) name } := by
  unfold insertDoc
  rw [h]
  rfl

theorem insertDoc_good (db : DB) (path name doc_type : String)
    (size : Nat) (mtime : Int) (hg : goodDB db) (d : DB)
    (hok : insertDoc db path name doc_type size mtime = .ok d) :
    goodDB d := by
  obtain ⟨hp, hi, hf⟩ := hg
  unfold insertDoc at hok
  by_cases hc : db.files.any (fun r => r.path == path) = true
  · rw [if_pos hc] at hok; cases hok
  · rw [if_neg hc] at hok
    rw [Bool.not_eq_true] at hc
    cases hok
    have hfresh : ∀ r ∈ db.files, r.path ≠ path := by
      intro r hr
      have := (List.any_eq_false).mp hc r hr
      simpa using this
    refine ⟨?_, ?_, ?_⟩
    · show ((db.files ++ [_]).map FileRecord.path).Nodup
      rw [List.map_append]
      refine List.nodup_append.mpr ⟨hp, List.nodup_singleton _, ?_⟩
      intro a ha
      obtain ⟨r, hr, rfl⟩ := List.mem_map.mp ha
      simp [hfresh r hr]
    · show ((db.files ++ [_]).map FileRecord.id).Nodup
      rw [List.map_append]
      refine List.nodup_append.mpr ⟨hi, List.nodup_singleton _, ?_⟩
      intro a ha
      obtain ⟨r, hr, rfl⟩ := List.mem_map.mp ha
      have := nextId_gt db r hr
      simp only [List.map_cons, List.map_nil, List.mem_singleton]
      omega
    · show ((db.files ++ [_]).map pairOf).Perm (ftsAfterInsert _ _ _)
      rw [List.map_append]
      exact hf.append (List.Perm.refl _)

theorem updateDoc_none (db : DB) (i : Nat) (path name doc_type : String)
    (size : Nat) (mtime : Int)
    (hfind : db.files.find? (fun r => r.id == i) = none) :
    updateDoc db i path name doc_type size mtime = .ok db := by
  unfold updateDoc
  rw [hfind]

theorem updateDoc_err (db : DB) (i : Nat) (path name doc_type : String)
    (size : Nat) (mtime : Int) (old : FileRecord)
    (hfind : db.files.find? (fun r => r.id == i) = some old)
    (hc : db.files.any (fun r => !(r.id == i) && r.path == path) = true) :
    updateDoc db i path name doc_type size mtime = .error () := by
  unfold updateDoc
  rw [hfind, hc]
  rfl

theorem updateDoc_ok (db : DB) (i : Nat) (path name doc_type : String)
    (size : Nat) (mtime : Int) (old : FileRecord)
    (hfind : db.files.find? (fun r => r.id == i) = some old)
    (hc : db.files.any (fun r => !(r.id == i) && r.path == path) = false) :
    updateDoc db i path name doc_type size mtime =
      .ok { db with
        files := db.files.map (fun r =>
          if r.id == i then ⟨i, path, name, doc_type, size, mtime⟩ else r),
        files_fts :=
          ftsAfterInsert (ftsAfterDelete db.files_fts i old.name) i name } := by
  unfold updateDoc
  rw [hfind, hc]
  rfl

theorem updateDoc_good (db : DB) (i : Nat) (path name doc_type : String)
    (size : Nat) (mtime : Int) (hg : goodDB db) (d : DB)
    (hok : updateDoc db i path name doc_type size mtime = .ok d) :
    goodDB d := by
  obtain ⟨hp, hi, hf⟩ := hg
  cases hfind : db.files.find? (fun r => r.id == i) with
  | none =>
    rw [updateDoc_none db i path name doc_type size mtime hfind] at hok
    cases hok
    exact ⟨hp, hi, hf⟩
  | some old =>
    by_cases hc : db.files.any (fun r => !(r.id == i) && r.path == path) = true
    · rw [updateDoc_err db i path name doc_type size mtime old hfind hc] at hok
      cases hok
    · rw [Bool.not_eq_true] at hc
      rw [updateDoc_ok db i path name doc_type size mtime old hfind hc] at hok
      cases hok
      have hmem : old ∈ db.files := List.mem_of_find?_eq_some hfind
      have hoid : old.id = i := by
        have := List.find?_some hfind
        simpa using this
      have hnocol : ∀ r ∈ db.files, r.id ≠ i → r.path ≠ path := by
        intro r hr hrid
        have := (List.any_eq_false).mp hc r hr
        simp only [Bool.and_eq_true, Bool.not_eq_true', beq_eq_false_iff_ne,
          ne_eq, beq_iff_eq, not_and] at this
        exact this hrid
      have hidpt : ∀ r : FileRecord,
          ((if r.id == i then
              (⟨i, path, name, doc_type, size, mtime⟩ : FileRecord)
            else r) : FileRecord).id = r.id := by
        intro r
        by_cases h : r.id = i <;> simp [h]
      constructor
      · show ((db.files.map fun r =>
          if r.id == i then ⟨i, path, name, doc_type, size, mtime⟩ else r).map
            FileRecord.path).Nodup
        rw [List.map_map]
        have hnd : db.files.Nodup := hi.of_map _
        refine hnd.map_on ?_
        intro x hx y hy hxy
        simp only [Function.comp_apply] at hxy
        by_cases hxi : x.id = i <;> by_cases hyi : y.id = i
        · exact id_injective db.files hi x y hx hy (hxi.trans hyi.symm)
        · rw [if_pos (by simpa using hxi), if_neg (by simpa using hyi)] at hxy
          exact absurd hxy.symm (hnocol y hy hyi)
        · rw [if_neg (by simpa using hxi), if_pos (by simpa using hyi)] at hxy
          exact absurd hxy (hnocol x hx hxi)
        · rw [if_neg (by simpa using hxi), if_neg (by simpa using hyi)] at hxy
          exact List.inj_on_of_nodup_map hp hx hy hxy
      constructor
      · show ((db.files.map fun r =>
          if r.id == i then ⟨i, path, name, doc_type, size, mtime⟩ else r).map
            FileRecord.id).Nodup
        rw [List.map_map]
        have : (FileRecord.id ∘ fun r : FileRecord =>
            if r.id == i then
              (⟨i, path, name, doc_type, size, mtime⟩ : FileRecord)
            else r) = FileRecord.id := by
          funext r
          exact hidpt r
        rw [this]
        exact hi
      · show ((db.files.map fun r =>
          if r.id == i then ⟨i, path, name, doc_type, size, mtime⟩ else r).map
            pairOf).Perm
          (ftsAfterInsert (ftsAfterDelete db.files_fts i old.name) i name)
        have hperm : db.files.Perm (old :: db.files.erase old) :=
          List.perm_cons_erase hmem
        have herasemem : ∀ r ∈ db.files.erase old, r.id ≠ i := by
          intro r hr hri
          have hrmem : r ∈ db.files := (db.files.erase_sublist old).mem hr
          have : r = old := id_injective db.files hi r old hrmem hmem
            (hri.trans hoid.symm)
          subst this
          have hnd : db.files.Nodup := hi.of_map _
          exact (List.Nodup.not_mem_erase hnd) hr
        rw [List.map_map]
        have lhs1 := hperm.map (pairOf ∘ fun r : FileRecord =>
          if r.id == i then ⟨i, path, name, doc_type, size, mtime⟩ else r)
        have lhs2 : ((old :: db.files.erase old).map (pairOf ∘
            fun r : FileRecord =>
              if r.id == i then ⟨i, path, name, doc_type, size, mtime⟩
              else r)) =
            (i, name) :: (db.files.erase old).map pairOf := by
          rw [List.map_cons]
          congr 1
          · simp [pairOf, hoid]
          · refine List.map_congr_left fun r hr => ?_
            have := herasemem r hr
            simp [pairOf, this]
        -- right side
        have rhs1 : ftsAfterDelete db.files_fts i old.name =
            db.files_fts.filter (fun e => !(e == (i, old.name))) := rfl
        have base := hf.symm.filter (fun e => !(e == (i, old.name)))
        rw [List.filter_map] at base
        have rhs2 : db.files.filter
            ((fun e => !(e == (i, old.name))) ∘ pairOf) =
            db.files.erase old := by
          have h3 : db.files.filter
              ((fun e => !(e == (i, old.name))) ∘ pairOf) =
              db.files.filter (fun r => !(r == old)) := by
            refine List.filter_congr fun r hr => ?_
            simp only [Function.comp_apply]
            congr 1
            by_cases hro : r = old
            · subst hro; simp [pairOf, hoid]
            · have : pairOf r ≠ (i, old.name) := by
                intro hcon
                exact hro (pair_injective db.files hi r old hr hmem
                  (by rw [hcon]; simp [pairOf, hoid]))
              simp [hro, this]
          rw [h3]
          have hnd : db.files.Nodup := hi.of_map _
          exact (List.Nodup.erase_eq_filter hnd old).symm
        rw [rhs2] at base
        rw [show ftsAfterInsert (ftsAfterDelete db.files_fts i old.name)
            i name =
            (db.files_fts.filter (fun e => !(e == (i, old.name)))) ++
              [(i, name)] from rfl]
        refine lhs1.trans ?_
        rw [lhs2]
        exact (List.perm_append_singleton _ _).symm.trans
          (base.symm.append (List.Perm.refl _))

theorem execDoc_good (db : DB) (doc : BatchDoc) (d : DB)
    (hg : goodDB db) (hok : execDoc db doc = .ok d) : goodDB d := by
  cases doc with
  | newDoc p n t s m => exact insertDoc_good db p n t s m hg d hok
  | updDoc i p n t s m => exact updateDoc_good db i p n t s m hg d hok

theorem foldlM_execDoc_good (docs : List BatchDoc) (db d : DB)
    (hg : goodDB db) (hok : docs.foldlM execDoc db = .ok d) : goodDB d := by
  induction docs generalizing db with
  | nil =>
    simp only [List.foldlM_nil] at hok
    cases hok
    exact hg
  | cons doc docs ih =>
    rw [List.foldlM_cons] at hok
    cases hstep : execDoc db doc with
    | error e => rw [hstep] at hok; cases hok
    | ok db1 =>
      rw [hstep] at hok
      exact ih db1 (execDoc_good db doc db1 hg hstep) hok

theorem applyBatch_good (db : DB) (docs : List BatchDoc) (d : DB)
    (hg : goodDB db) (hok : applyBatch db docs = .ok d) : goodDB d :=
  foldlM_execDoc_good _ db d hg hok

theorem add_documents_batch_good (db : DB) (docs : List BatchDoc)
    (hg : goodDB db) : goodDB (add_documents_batch db docs).1 := by
  unfold add_documents_batch
  cases hb : applyBatch db docs with
  | ok d => exact applyBatch_good db docs d hg hb
  | error e => exact hg

theorem delete_document_good (db : DB) (p : String) (hg : goodDB db) :
    goodDB (delete_document db p) :=
  deleteWhere_good db _ hg

theorem clear_index_good (db : DB) (p : Option String) (hg : goodDB db) :
    goodDB (clear_index db p) := by
  cases p with
  | some pre => exact deleteWhere_good db _ hg
  | none =>
    have h := deleteWhere_good db (fun _ => true) hg
    exact ⟨h.1, h.2.1, h.2.2⟩

theorem remove_indexed_path_good (db : DB) (p : String) (hg : goodDB db) :
    goodDB (remove_indexed_path db p) := by
  unfold remove_indexed_path
  exact deleteWhere_good _ _ ⟨hg.1, hg.2.1, hg.2.2⟩

/-- add_document on a path that has no stored record behaves as a plain
insert and keeps the database well formed. -/
theorem add_document_fresh_good (db : DB) (path name doc_type : String)
    (size : Nat) (mtime : Int) (hg : goodDB db)
    (hfresh : ∀ r ∈ db.files, r.path ≠ path) :
    goodDB (add_document db path name doc_type size mtime) := by
  have hall : db.files.filter (fun r => !(r.path == path)) = db.files :=
    List.filter_eq_self.mpr (fun r hr => by simpa using hfresh r hr)
  have hany : db.files.any (fun r => r.path == path) = false :=
    List.any_eq_false.mpr (fun r hr => by simpa using hfresh r hr)
  have h := insertDoc_good db path name doc_type size mtime hg _
    (insertDoc_ok db path name doc_type size mtime hany)
  unfold add_document
  rw [hall]
  exact h

theorem sync_changes_good (db : DB) (sp : String) (items : List WalkItem)
    (hg : goodDB db) : goodDB (sync_changes db sp items) := by
  unfold sync_changes
  have hdel : goodDB (if (sync_deleted_paths db sp items).isEmpty then db
      else deleteWhere db
        (fun r => (sync_deleted_paths db sp items).contains r.path)) := by
    by_cases h : (sync_deleted_paths db sp items).isEmpty
    · rw [if_pos h]; exact hg
    · rw [if_neg h]; exact deleteWhere_good db _ hg
  by_cases h2 : (sync_to_add_or_update db sp items).isEmpty
  · rw [if_pos h2]; exact hdel
  · rw [if_neg h2]
    cases hb : applyBatch _ (sync_to_add_or_update db sp items) with
    | ok d => exact applyBatch_good _ _ d hdel hb
    | error e => exact hg

/-- In a list with pairwise distinct ids, filtering by one member's id
yields exactly that member. -/
theorem filter_id_singleton (l : List FileRecord)
    (hi : (l.map FileRecord.id).Nodup) (r : FileRecord) (hr : r ∈ l) :
    l.filter (fun s => s.id == r.id) = [r] := by
  induction l with
  | nil => cases hr
  | cons a t ih =>
    rw [List.map_cons, List.nodup_cons] at hi
    rcases List.mem_cons.mp hr with rfl | hrt
    · rw [List.filter_cons, if_pos (by simp)]
      have : t.filter (fun s => s.id == r.id) = [] := by
        refine List.filter_eq_nil_iff.mpr fun s hs => ?_
        simp only [beq_iff_eq]
        intro he
        exact hi.1 (he ▸ List.mem_map_of_mem FileRecord.id hs)
      rw [this]
    · have hne : a.id ≠ r.id := by
        intro he
        exact hi.1 (he ▸ List.mem_map_of_mem FileRecord.id hrt)
      rw [List.filter_cons, if_neg (by simpa using hne)]
      exact ih hi.2 hrt

/-- A well-formed database satisfies the full-text invariant as the
specification states it. -/
theorem goodDB_ftsInvariant (db : DB) (hg : goodDB db) :
    ftsInvariant db := by
  obtain ⟨hp, hi, hf⟩ := hg
  intro r hr
  have h1 := hf.symm.filter (fun e => e.1 == r.id)
  rw [List.filter_map] at h1
  have h2 : db.files.filter ((fun e : Nat × String => e.1 == r.id) ∘ pairOf) =
      [r] := filter_id_singleton db.files hi r hr
  rw [h2, List.map_cons, List.map_nil] at h1
  exact List.perm_singleton.mp h1

end Preservation

section WatcherSearchLemmas

theorem add_item_action_none (db : DB) (fs : String → Option StatInfo)
    (path : String) (h : fs path = none) :
    add_item_action db fs path = db := by
  unfold add_item_action
  rw [h]

theorem add_item_action_some (db : DB) (fs : String → Option StatInfo)
    (path : String) (st : StatInfo) (h : fs path = some st) :
    add_item_action db fs path =
      add_document db path (basename path)
        (if st.isDir then "folder" else "file")
        (if st.isDir then 0 else st.size) st.mtime := by
  unfold add_item_action
  rw [h]

theorem whitespace_not_alphanum (c : Char) (h : c.isWhitespace = true) :
    c.isAlphanum = false := by
  have h2 : c = ' ' ∨ c = '\t' ∨ c = '\r' ∨ c = '\n' := by
    simpa [Char.isWhitespace, or_assoc] using h
  rcases h2 with rfl | rfl | rfl | rfl <;> decide

theorem parseQuery_whitespace (q : String)
    (h : ∀ c ∈ q.toList, c.isWhitespace = true) :
    parseQuery q = .error () := by
  unfold parseQuery
  by_cases hall : q.toList.all (fun c => c.isAlphanum || c == ' ') = true
  · rw [if_pos hall]
    cases hlast : q.toList.getLast? with
    | none => rfl
    | some c =>
      have hc : c ∈ q.toList := List.mem_of_getLast?_eq_some hlast
      show (if c.isAlphanum then Except.ok (tokenize q)
        else Except.error ()) = Except.error ()
      rw [whitespace_not_alphanum c (h c hc)]
      rfl
  · rw [if_neg hall]

/-- In a well-formed database the index tokens of a stored row are the
tokens of its current name. -/
theorem ftsTokens_of_good (db : DB) (hg : goodDB db) (r : FileRecord)
    (hr : r ∈ db.files) :
    ftsTokens db.files_fts r.id = tokenize r.name := by
  unfold ftsTokens
  rw [goodDB_ftsInvariant db hg r hr]
  simp

/-- Over a well-formed database, the match of the files join files_fts
rows reduces to a match on the stored names. -/
theorem search_of_good (db : DB) (q : String) (lim : Option Int)
    (terms : List String) (hg : goodDB db)
    (hq : parseQuery q = .ok terms) :
    search db q lim = .ok (applyLimit lim (db.files.filter
      (fun r => termsMatch terms (tokenize r.name)))) := by
  unfold search
  rw [hq]
  show Except.ok _ = Except.ok _
  congr 1
  congr 1
  refine List.filter_congr fun r hr => ?_
  unfold rowidMatches
  rw [ftsTokens_of_good db hg r hr]

theorem applyLimit_singleton (lim : Option Int) (r : FileRecord) :
    applyLimit lim [r] = [r] := by
  cases lim with
  | none => rfl
  | some l =>
    show (if l ≤ 0 then [r] else List.take l.toNat [r]) = [r]
    by_cases h : l ≤ 0
    · rw [if_pos h]
    · rw [if_neg h]
      have : 1 ≤ l.toNat := by omega
      rw [List.take_of_length_le (by simpa using this)]

end WatcherSearchLemmas

section SyncLemmas

theorem nodup_map_of_nodup_map {α β γ : Type} (l : List α) (f : α → β)
    (g : α → γ) (hf : (l.map f).Nodup)
    (hinj : ∀ x ∈ l, ∀ y ∈ l, g x = g y → f x = f y) :
    (l.map g).Nodup :=
  (hf.of_map f).map_on
    (fun x hx y hy hg =>
      List.inj_on_of_nodup_map hf hx hy (hinj x hx y hy hg))

theorem dbFilesLookup_some (db : DB) (sp p : String) (m : Int) (i : Nat)
    (h : dbFilesLookup db sp p = some (m, i)) :
    ∃ r ∈ db.files, likeMatch sp r.path = true ∧ r.path = p ∧
      r.mtime = m ∧ r.id = i := by
  unfold dbFilesLookup at h
  cases hf : (db.files.filter (fun r => likeMatch sp r.path)).find?
      (fun r => r.path == p) with
  | none => rw [hf] at h; cases h
  | some r =>
    rw [hf] at h
    have h2 := Option.some.inj h
    have hmem := List.mem_of_find?_eq_some hf
    refine ⟨r, (List.mem_filter.mp hmem).1, (List.mem_filter.mp hmem).2,
      by simpa using List.find?_some hf,
      congrArg Prod.fst h2, congrArg Prod.snd h2⟩

theorem dbFilesLookup_none (db : DB) (sp p : String)
    (h : dbFilesLookup db sp p = none) :
    ∀ r ∈ db.files, likeMatch sp r.path = true → r.path ≠ p := by
  unfold dbFilesLookup at h
  intro r hr hlm hp
  cases hf : (db.files.filter (fun r => likeMatch sp r.path)).find?
      (fun r => r.path == p) with
  | some s => rw [hf] at h; cases h
  | none =>
    have := List.find?_eq_none.mp hf r (List.mem_filter.mpr ⟨hr, hlm⟩)
    simp [hp] at this

theorem dbFilesLookup_of_mem (db : DB) (sp : String) (r : FileRecord)
    (hu : uniquePaths db) (hr : r ∈ db.files)
    (hlm : likeMatch sp r.path = true) :
    dbFilesLookup db sp r.path = some (r.mtime, r.id) := by
  unfold dbFilesLookup
  cases hf : (db.files.filter (fun s => likeMatch sp s.path)).find?
      (fun s => s.path == r.path) with
  | none =>
    exfalso
    have := List.find?_eq_none.mp hf r (List.mem_filter.mpr ⟨hr, hlm⟩)
    simp at this
  | some s =>
    have hsmem := List.mem_of_find?_eq_some hf
    have hsp : s.path = r.path := by simpa using List.find?_some hf
    have hse : s = r := List.inj_on_of_nodup_map hu
      (List.mem_filter.mp hsmem).1 hr hsp
    rw [hse]
    rfl

theorem syncDocOf_statFail (db : DB) (sp : String) (it : WalkItem)
    (hs : it.statOk = false) : syncDocOf db sp it = none := by
  unfold syncDocOf
  rw [hs]
  rfl

theorem syncDocOf_new (db : DB) (sp : String) (it : WalkItem)
    (hs : it.statOk = true) (hl : dbFilesLookup db sp it.path = none) :
    syncDocOf db sp it = some it.asNewDoc := by
  unfold syncDocOf
  rw [hs, hl]
  rfl

theorem syncDocOf_upd (db : DB) (sp : String) (it : WalkItem) (m0 : Int)
    (i : Nat) (hs : it.statOk = true)
    (hl : dbFilesLookup db sp it.path = some (m0, i))
    (hm : (it.mtime - m0).natAbs > 1) :
    syncDocOf db sp it = some (it.asUpdDoc i) := by
  unfold syncDocOf
  rw [hs, hl]
  show (if (it.mtime - m0).natAbs > 1 then some (it.asUpdDoc i)
    else none) = _
  rw [if_pos hm]

theorem syncDocOf_skip (db : DB) (sp : String) (it : WalkItem) (m0 : Int)
    (i : Nat) (hs : it.statOk = true)
    (hl : dbFilesLookup db sp it.path = some (m0, i))
    (hm : ¬ (it.mtime - m0).natAbs > 1) :
    syncDocOf db sp it = none := by
  unfold syncDocOf
  rw [hs, hl]
  show (if (it.mtime - m0).natAbs > 1 then some (it.asUpdDoc i)
    else none) = _
  rw [if_neg hm]

theorem syncDocOf_cases (db : DB) (sp : String) (it : WalkItem)
    (d : BatchDoc) (h : syncDocOf db sp it = some d) :
    it.statOk = true ∧
      ((dbFilesLookup db sp it.path = none ∧ d = it.asNewDoc) ∨
       (∃ m0 i, dbFilesLookup db sp it.path = some (m0, i) ∧
         (it.mtime - m0).natAbs > 1 ∧ d = it.asUpdDoc i)) := by
  by_cases hs : it.statOk = true
  · refine ⟨hs, ?_⟩
    cases hl : dbFilesLookup db sp it.path with
    | none =>
      rw [syncDocOf_new db sp it hs hl] at h
      exact Or.inl ⟨rfl, (Option.some.inj h).symm⟩
    | some mi =>
      obtain ⟨m0, i⟩ := mi
      by_cases hm : (it.mtime - m0).natAbs > 1
      · rw [syncDocOf_upd db sp it m0 i hs hl hm] at h
        exact Or.inr ⟨m0, i, rfl, hm, (Option.some.inj h).symm⟩
      · rw [syncDocOf_skip db sp it m0 i hs hl hm] at h
        cases h
  · rw [syncDocOf_statFail db sp it (by simpa using hs)] at h
    cases h

theorem syncDocOf_path (db : DB) (sp : String) (it : WalkItem)
    (d : BatchDoc) (h : syncDocOf db sp it = some d) :
    d.docPath = it.path := by
  obtain ⟨-, hc⟩ := syncDocOf_cases db sp it d h
  rcases hc with ⟨-, rfl⟩ | ⟨m0, i, -, -, rfl⟩ <;> rfl

theorem mem_sync_to_add (db : DB) (sp : String) (items : List WalkItem)
    (d : BatchDoc) :
    d ∈ sync_to_add_or_update db sp items ↔
      ∃ it ∈ items, syncDocOf db sp it = some d := by
  unfold sync_to_add_or_update
  exact List.mem_filterMap

theorem applyBatch_nil (db : DB) : applyBatch db [] = .ok db := rfl

theorem deleteWhere_nilpred (db : DB) :
    deleteWhere db (fun r => ([] : List String).contains r.path) = db := by
  unfold deleteWhere
  simp

theorem sync_changes_eq (db : DB) (sp : String) (items : List WalkItem) :
    sync_changes db sp items =
      match applyBatch
          (deleteWhere db
            (fun r => (sync_deleted_paths db sp items).contains r.path))
          (sync_to_add_or_update db sp items) with
      | .ok d => d
      | .error _ => db := by
  unfold sync_changes
  by_cases hd : (sync_deleted_paths db sp items).isEmpty
  · rw [if_pos hd]
    have hnil : sync_deleted_paths db sp items = [] := by
      simpa [List.isEmpty_iff] using hd
    rw [hnil, deleteWhere_nilpred]
    by_cases ht : (sync_to_add_or_update db sp items).isEmpty
    · have htn : sync_to_add_or_update db sp items = [] := by
        simpa [List.isEmpty_iff] using ht
      rw [if_pos ht, htn, applyBatch_nil]
    · rw [if_neg ht]
  · rw [if_neg hd]
    by_cases ht : (sync_to_add_or_update db sp items).isEmpty
    · have htn : sync_to_add_or_update db sp items = [] := by
        simpa [List.isEmpty_iff] using ht
      rw [if_pos ht, htn, applyBatch_nil]
    · rw [if_neg ht]

theorem insertFold_spec (news : List BatchDoc) (db : DB)
    (hshape : ∀ d ∈ news, d.isNew = true)
    (hnd : (news.map BatchDoc.docPath).Nodup)
    (hfresh : ∀ d ∈ news, ∀ r ∈ db.files, r.path ≠ d.docPath)
    (hg : goodDB db) :
    ∃ d1 recs, news.foldlM execDoc db = .ok d1 ∧
      d1.files = db.files ++ recs ∧
      recs.map recFields = news.map BatchDoc.fields ∧
      (∀ r ∈ recs, nextId db ≤ r.id) ∧
      goodDB d1 ∧ d1.indexed_paths = db.indexed_paths := by
  induction news generalizing db with
  | nil =>
    exact ⟨db, [], rfl, (List.append_nil _).symm, rfl,
      fun r hr => absurd hr (List.not_mem_nil r), hg, rfl⟩
  | cons d ds ih =>
    cases d with
    | updDoc i p n t s m =>
      have := hshape _ (List.mem_cons_self _ _)
      simp [BatchDoc.isNew] at this
    | newDoc p n t s m =>
      have hanyf : db.files.any (fun r => r.path == p) = false :=
        List.any_eq_false.mpr fun r hr => by
          simpa using hfresh _ (List.mem_cons_self _ _) r hr
      have step := insertDoc_ok db p n t s m hanyf
      obtain ⟨db1, hdb1⟩ : ∃ db1, ({ db with
          files := db.files ++ [⟨nextId db, p, n, t, s, m⟩],
          files_fts := ftsAfterInsert db.files_fts (nextId db) n } : DB) =
          db1 := ⟨_, rfl⟩
      rw [hdb1] at step
      have hg1 : goodDB db1 := insertDoc_good db p n t s m hg db1 step
      have hdb1files : db1.files =
          db.files ++ [⟨nextId db, p, n, t, s, m⟩] := by rw [← hdb1]
      have hdb1ips : db1.indexed_paths = db.indexed_paths := by rw [← hdb1]
      rw [List.map_cons, List.nodup_cons] at hnd
      have hfresh1 : ∀ d' ∈ ds, ∀ r ∈ db1.files, r.path ≠ d'.docPath := by
        intro d' hd' r hr
        rw [hdb1files] at hr
        rcases List.mem_append.mp hr with h | h
        · exact hfresh d' (List.mem_cons_of_mem _ hd') r h
        · rw [List.mem_singleton.mp h]
          show p ≠ d'.docPath
          intro hcon
          refine hnd.1 ?_
          show p ∈ List.map BatchDoc.docPath ds
          rw [hcon]
          exact List.mem_map_of_mem BatchDoc.docPath hd'
      obtain ⟨d1, recs, hfold, hfiles, hfieldseq, hids, hgood, hips⟩ :=
        ih db1 (fun d' hd' => hshape d' (List.mem_cons_of_mem _ hd'))
          hnd.2 hfresh1 hg1
      refine ⟨d1, ⟨nextId db, p, n, t, s, m⟩ :: recs, ?_, ?_, ?_, ?_,
        hgood, hips.trans hdb1ips⟩
      · rw [List.foldlM_cons]
        show (execDoc db (.newDoc p n t s m) >>= fun b =>
          ds.foldlM execDoc b) = .ok d1
        rw [show execDoc db (.newDoc p n t s m) =
          insertDoc db p n t s m from rfl, step]
        exact hfold
      · rw [hfiles, hdb1files, List.append_assoc]
        rfl
      · rw [List.map_cons, List.map_cons, hfieldseq]
        rfl
      · intro r hr
        rcases List.mem_cons.mp hr with rfl | hr2
        · exact Nat.le_refl _
        · have h1 := hids r hr2
          have h2 : (⟨nextId db, p, n, t, s, m⟩ : FileRecord).id <
              nextId db1 :=
            nextId_gt db1 _ (by
              rw [hdb1files]
              exact List.mem_append_right _ (List.mem_singleton.mpr rfl))
          have h3 : (⟨nextId db, p, n, t, s, m⟩ : FileRecord).id =
              nextId db := rfl
          omega

theorem updFold_spec (upds : List BatchDoc) (db : DB)
    (hshape : ∀ d ∈ upds, d.isNew = false)
    (hnd : (upds.map BatchDoc.updId).Nodup)
    (htgt : ∀ d ∈ upds, ∃ r ∈ db.files,
      r.id = d.updId ∧ r.path = d.docPath)
    (hg : goodDB db) :
    ∃ d1, upds.foldlM execDoc db = .ok d1 ∧
      d1.files = db.files.map (applyUpd upds) ∧
      goodDB d1 ∧ d1.indexed_paths = db.indexed_paths := by
  induction upds generalizing db with
  | nil =>
    exact ⟨db, rfl,
      ((List.map_congr_left (fun r _ => (rfl : applyUpd [] r = id r))).trans
        (List.map_id _)).symm, hg, rfl⟩
  | cons d ds ih =>
    cases d with
    | newDoc p n t s m =>
      have := hshape _ (List.mem_cons_self _ _)
      simp [BatchDoc.isNew] at this
    | updDoc i p n t s m =>
      obtain ⟨row, hrow, hrowid, hrowpath⟩ := htgt _ (List.mem_cons_self _ _)
      have hrowid' : row.id = i := hrowid
      have hrowpath' : row.path = p := hrowpath
      cases hfind : db.files.find? (fun r => r.id == i) with
      | none =>
        exact absurd (by simpa using hrowid' :
            (row.id == i) = true)
          (by simpa using List.find?_eq_none.mp hfind row hrow)
      | some old =>
        have holdmem : old ∈ db.files := List.mem_of_find?_eq_some hfind
        have holdid : old.id = i := by simpa using List.find?_some hfind
        have holdrow : old = row :=
          id_injective db.files hg.2.1 old row holdmem hrow
            (holdid.trans hrowid'.symm)
        have holdpath : old.path = p := holdrow ▸ hrowpath'
        have hcol : db.files.any
            (fun r => !(r.id == i) && r.path == p) = false := by
          refine List.any_eq_false.mpr fun r hr => ?_
          simp only [Bool.and_eq_true, Bool.not_eq_true', beq_iff_eq,
            beq_eq_false_iff_ne, ne_eq, not_and]
          intro hrne hrp
          exact hrne (congrArg FileRecord.id
            (List.inj_on_of_nodup_map hg.1 hr holdmem
              (hrp.trans holdpath.symm)) |>.trans holdid)
        have step := updateDoc_ok db i p n t s m old hfind hcol
        obtain ⟨db1, hdb1⟩ : ∃ db1, ({ db with
            files := db.files.map (fun r =>
              if r.id == i then ⟨i, p, n, t, s, m⟩ else r),
            files_fts :=
              ftsAfterInsert (ftsAfterDelete db.files_fts i old.name) i n }
            : DB) = db1 := ⟨_, rfl⟩
        rw [hdb1] at step
        have hg1 : goodDB db1 := updateDoc_good db i p n t s m hg db1 step
        have hdb1files : db1.files = db.files.map (fun r =>
            if r.id == i then ⟨i, p, n, t, s, m⟩ else r) := by
          rw [← hdb1]
        have hdb1ips : db1.indexed_paths = db.indexed_paths := by
          rw [← hdb1]
        rw [List.map_cons, List.nodup_cons] at hnd
        have hinotin : ∀ d' ∈ ds, d'.updId ≠ i := by
          intro d' hd' hcon
          refine hnd.1 ?_
          show i ∈ List.map BatchDoc.updId ds
          rw [← hcon]
          exact List.mem_map_of_mem BatchDoc.updId hd'
        have htgt1 : ∀ d' ∈ ds, ∃ r ∈ db1.files,
            r.id = d'.updId ∧ r.path = d'.docPath := by
          intro d' hd'
          obtain ⟨row', hrow', hid', hpath'⟩ :=
            htgt d' (List.mem_cons_of_mem _ hd')
          have hne : (row'.id == i) = false := by
            simp only [beq_eq_false_iff_ne, ne_eq]
            intro hcon
            exact hinotin d' hd' (hid'.symm.trans hcon)
          refine ⟨row', ?_, hid', hpath'⟩
          rw [hdb1files]
          have hmm := List.mem_map_of_mem (fun r : FileRecord =>
            if r.id == i then (⟨i, p, n, t, s, m⟩ : FileRecord) else r)
            hrow'
          simpa [hne] using hmm
        obtain ⟨d1, hfold, hfiles, hgood, hips⟩ :=
          ih db1 (fun d' hd' => hshape d' (List.mem_cons_of_mem _ hd'))
            hnd.2 htgt1 hg1
        refine ⟨d1, ?_, ?_, hgood, hips.trans hdb1ips⟩
        · rw [List.foldlM_cons]
          show (execDoc db (.updDoc i p n t s m) >>= fun b =>
            ds.foldlM execDoc b) = .ok d1
          rw [show execDoc db (.updDoc i p n t s m) =
            updateDoc db i p n t s m from rfl, step]
          exact hfold
        · rw [hfiles, hdb1files, List.map_map]
          refine List.map_congr_left fun r hr => ?_
          by_cases hri : r.id = i
          · have h2 : applyUpd ds (⟨i, p, n, t, s, m⟩ : FileRecord) =
                ⟨i, p, n, t, s, m⟩ := by
              have hnone : ds.find? (fun d' =>
                  d'.targets (⟨i, p, n, t, s, m⟩ : FileRecord).id) =
                  none := by
                refine List.find?_eq_none.mpr fun d' hd' => ?_
                cases d' with
                | newDoc _ _ _ _ _ => simp [BatchDoc.targets]
                | updDoc j q nn tt ss mm =>
                  simp only [BatchDoc.targets, beq_iff_eq]
                  exact hinotin _ hd'
              unfold applyUpd
              rw [hnone]
            have h3 : applyUpd (.updDoc i p n t s m :: ds) r =
                ⟨r.id, p, n, t, s, m⟩ := by
              unfold applyUpd
              rw [List.find?_cons_of_pos _ (by
                show (BatchDoc.targets _ _) = true
                simp [BatchDoc.targets, hri])]
            rw [h3]
            simp only [Function.comp_apply, if_pos (by simpa using hri :
              (r.id == i) = true)]
            rw [h2, hri]
          · have h3 : applyUpd (.updDoc i p n t s m :: ds) r =
                applyUpd ds r := by
              unfold applyUpd
              rw [List.find?_cons_of_neg _ (by
                show ¬((BatchDoc.targets _ _) = true)
                simp only [BatchDoc.targets, beq_iff_eq]
                exact fun hcon => hri hcon.symm)]
            rw [h3]
            simp only [Function.comp_apply, if_neg (by simpa using hri :
              ¬((r.id == i) = true))]

theorem applyBatch_spec (db : DB) (docs : List BatchDoc)
    (hnd_new : ((docs.filter BatchDoc.isNew).map BatchDoc.docPath).Nodup)
    (hfresh : ∀ d ∈ docs.filter BatchDoc.isNew, ∀ r ∈ db.files,
      r.path ≠ d.docPath)
    (hnd_upd : ((docs.filter (fun d => !d.isNew)).map BatchDoc.updId).Nodup)
    (htgt : ∀ d ∈ docs.filter (fun d => !d.isNew), ∃ r ∈ db.files,
      r.id = d.updId ∧ r.path = d.docPath)
    (hg : goodDB db) :
    ∃ d1 recs, applyBatch db docs = .ok d1 ∧
      d1.files = db.files.map
        (applyUpd (docs.filter (fun d => !d.isNew))) ++ recs ∧
      recs.map recFields =
        (docs.filter BatchDoc.isNew).map BatchDoc.fields ∧
      goodDB d1 ∧ d1.indexed_paths = db.indexed_paths := by
  obtain ⟨db2, recs, hfold1, hfiles2, hfields, hids, hg2, hips2⟩ :=
    insertFold_spec (docs.filter BatchDoc.isNew) db
      (fun d hd => (List.mem_filter.mp hd).2) hnd_new hfresh hg
  have htgt2 : ∀ d ∈ docs.filter (fun d => !d.isNew), ∃ r ∈ db2.files,
      r.id = d.updId ∧ r.path = d.docPath := by
    intro d hd
    obtain ⟨r, hr, h1, h2⟩ := htgt d hd
    exact ⟨r, hfiles2 ▸ List.mem_append_left _ hr, h1, h2⟩
  obtain ⟨d1, hfold2, hfiles1, hg1, hips1⟩ :=
    updFold_spec (docs.filter (fun d => !d.isNew)) db2
      (fun d hd => by simpa using (List.mem_filter.mp hd).2)
      hnd_upd htgt2 hg2
  refine ⟨d1, recs, ?_, ?_, hfields, hg1, hips1.trans hips2⟩
  · unfold applyBatch
    rw [List.foldlM_append, hfold1]
    exact hfold2
  · rw [hfiles1, hfiles2, List.map_append]
    congr 1
    have h1 : ∀ r ∈ recs,
        applyUpd (docs.filter (fun d => !d.isNew)) r = id r := by
      intro r hr
      have hrid : nextId db ≤ r.id := hids r hr
      show applyUpd _ r = r
      unfold applyUpd
      have hnone : (docs.filter (fun d => !d.isNew)).find?
          (fun d => d.targets r.id) = none := by
        refine List.find?_eq_none.mpr fun d hd => ?_
        obtain ⟨rowd, hrowd, hrowid, -⟩ := htgt d hd
        cases d with
        | newDoc _ _ _ _ _ => simp [BatchDoc.targets]
        | updDoc j q nn tt ss mm =>
          simp only [BatchDoc.targets, beq_iff_eq]
          intro hcon
          have : rowd.id = j := hrowid
          have hlt := nextId_gt db rowd hrowd
          omega
      rw [hnone]
    exact (List.map_congr_left h1).trans (List.map_id _)

theorem nodup_filterMap_key {α β γ : Type} (l : List α) (f : α → Option β)
    (key : β → γ) (keyA : α → γ)
    (hk : ∀ a b, f a = some b → key b = keyA a)
    (h : (l.map keyA).Nodup) : ((l.filterMap f).map key).Nodup := by
  induction l with
  | nil => simp
  | cons a t ih =>
    rw [List.map_cons, List.nodup_cons] at h
    cases hf : f a with
    | none => rw [List.filterMap_cons_none hf]; exact ih h.2
    | some b =>
      rw [List.filterMap_cons_some hf, List.map_cons,
        List.nodup_cons]
      refine ⟨?_, ih h.2⟩
      rw [hk a b hf]
      intro hcon
      obtain ⟨b', hb', hkb⟩ := List.mem_map.mp hcon
      obtain ⟨a', ha', hfa⟩ := List.mem_filterMap.mp hb'
      refine h.1 ?_
      rw [← hkb, hk a' b' hfa]
      exact List.mem_map_of_mem keyA ha'

theorem contains_iff_mem' {α : Type} [BEq α] [LawfulBEq α] (l : List α)
    (a : α) : l.contains a = true ↔ a ∈ l := by simp

theorem sync_deleted_mem (db : DB) (sp : String) (items : List WalkItem)
    (p : String) :
    p ∈ sync_deleted_paths db sp items ↔
      ((∃ r ∈ db.files, likeMatch sp r.path = true ∧ r.path = p) ∧
        p ∉ items.map WalkItem.path) := by
  unfold sync_deleted_paths
  rw [List.mem_filter]
  constructor
  · rintro ⟨h1, h2⟩
    obtain ⟨r, hr, hrp⟩ := List.mem_map.mp h1
    obtain ⟨hrmem, hrlike⟩ := List.mem_filter.mp hr
    refine ⟨⟨r, hrmem, hrlike, hrp⟩, ?_⟩
    intro hcon
    rw [Bool.not_eq_true'] at h2
    rw [(contains_iff_mem' _ _).mpr hcon] at h2
    cases h2
  · rintro ⟨⟨r, hrmem, hrlike, hrp⟩, h2⟩
    constructor
    · rw [← hrp]
      exact List.mem_map_of_mem FileRecord.path
        (List.mem_filter.mpr ⟨hrmem, hrlike⟩)
    · rw [Bool.not_eq_true', Bool.eq_false_iff]
      exact fun hcon => h2 ((contains_iff_mem' _ _).mp hcon)

theorem sync_db1_keep (db : DB) (sp : String) (items : List WalkItem)
    (r : FileRecord) (hp : r.path ∈ items.map WalkItem.path) :
    (!((sync_deleted_paths db sp items).contains r.path)) = true := by
  rw [Bool.not_eq_true', Bool.eq_false_iff]
  intro hcon
  exact ((sync_deleted_mem db sp items r.path).mp
    ((contains_iff_mem' _ _).mp hcon)).2 hp

theorem toAdd_paths_nodup (db : DB) (sp : String) (items : List WalkItem)
    (hnd : (items.map WalkItem.path).Nodup) :
    ((sync_to_add_or_update db sp items).map BatchDoc.docPath).Nodup :=
  nodup_filterMap_key items (syncDocOf db sp) BatchDoc.docPath
    WalkItem.path (fun a b h => syncDocOf_path db sp a b h) hnd

theorem mem_news_char (db : DB) (sp : String) (items : List WalkItem)
    (d : BatchDoc)
    (hd : d ∈ (sync_to_add_or_update db sp items).filter BatchDoc.isNew) :
    ∃ it ∈ items, it.statOk = true ∧
      dbFilesLookup db sp it.path = none ∧ d = it.asNewDoc := by
  obtain ⟨hd1, hd2⟩ := List.mem_filter.mp hd
  obtain ⟨it, hit, hdoc⟩ := (mem_sync_to_add db sp items d).mp hd1
  obtain ⟨hst, hcase⟩ := syncDocOf_cases db sp it d hdoc
  rcases hcase with ⟨hl, rfl⟩ | ⟨m0, i, hl, hm, rfl⟩
  · exact ⟨it, hit, hst, hl, rfl⟩
  · simp [WalkItem.asUpdDoc, BatchDoc.isNew] at hd2

theorem mem_upds_char (db : DB) (sp : String) (items : List WalkItem)
    (d : BatchDoc)
    (hd : d ∈ (sync_to_add_or_update db sp items).filter
      (fun x => !x.isNew)) :
    ∃ it ∈ items, it.statOk = true ∧ ∃ m0 i,
      dbFilesLookup db sp it.path = some (m0, i) ∧
      (it.mtime - m0).natAbs > 1 ∧ d = it.asUpdDoc i := by
  obtain ⟨hd1, hd2⟩ := List.mem_filter.mp hd
  obtain ⟨it, hit, hdoc⟩ := (mem_sync_to_add db sp items d).mp hd1
  obtain ⟨hst, hcase⟩ := syncDocOf_cases db sp it d hdoc
  rcases hcase with ⟨hl, rfl⟩ | ⟨m0, i, hl, hm, rfl⟩
  · simp [WalkItem.asNewDoc, BatchDoc.isNew] at hd2
  · exact ⟨it, hit, hst, m0, i, hl, hm, rfl⟩

theorem upds_target_char (db : DB) (sp : String) (items : List WalkItem)
    (hg : goodDB db) (d : BatchDoc)
    (hd : d ∈ (sync_to_add_or_update db sp items).filter
      (fun x => !x.isNew))
    (r : FileRecord) (hr : r ∈ db.files) (htar : d.targets r.id = true) :
    ∃ it ∈ items, it.path = r.path ∧ it.statOk = true ∧
      (it.mtime - r.mtime).natAbs > 1 ∧ d = it.asUpdDoc r.id := by
  obtain ⟨it, hit, hst, m0, i, hl, hm, rfl⟩ :=
    mem_upds_char db sp items d hd
  have hieq : i = r.id := by
    simpa [WalkItem.asUpdDoc, BatchDoc.targets] using htar
  obtain ⟨r', hr', hlike', hpath', hm0, hid'⟩ :=
    dbFilesLookup_some db sp it.path m0 i hl
  have hrr : r' = r :=
    id_injective db.files hg.2.1 r' r hr' hr (hid'.trans hieq)
  subst hrr
  rw [← hm0] at hm
  exact ⟨it, hit, hpath'.symm, hst, hm, by rw [hieq]⟩

theorem sync_applyUpd_no_change (db : DB) (sp : String)
    (items : List WalkItem) (hg : goodDB db) (r : FileRecord)
    (hr : r ∈ db.files)
    (hno : ∀ it ∈ items, it.path = r.path →
      ¬(it.statOk = true ∧ (it.mtime - r.mtime).natAbs > 1)) :
    applyUpd ((sync_to_add_or_update db sp items).filter
      (fun d => !d.isNew)) r = r := by
  unfold applyUpd
  have hnone : ((sync_to_add_or_update db sp items).filter
      (fun d => !d.isNew)).find? (fun d => d.targets r.id) = none := by
    refine List.find?_eq_none.mpr fun d hd htar => ?_
    obtain ⟨it, hit, hip, hst, hm, -⟩ :=
      upds_target_char db sp items hg d hd r hr htar
    exact hno it hit hip ⟨hst, hm⟩
  rw [hnone]

theorem sync_applyUpd_change (db : DB) (sp : String)
    (items : List WalkItem) (hg : goodDB db)
    (hnd : (items.map WalkItem.path).Nodup)
    (hpref : ∀ it ∈ items, likeMatch sp it.path = true)
    (r : FileRecord) (hr : r ∈ db.files) (it : WalkItem)
    (hit : it ∈ items) (hip : it.path = r.path) (hst : it.statOk = true)
    (hm : (it.mtime - r.mtime).natAbs > 1) :
    applyUpd ((sync_to_add_or_update db sp items).filter
      (fun d => !d.isNew)) r =
      ⟨r.id, it.path, it.name, (if it.isDir then "folder" else "file"),
        (if it.isDir then 0 else it.size), it.mtime⟩ := by
  have hlook : dbFilesLookup db sp it.path = some (r.mtime, r.id) := by
    rw [hip]
    exact dbFilesLookup_of_mem db sp r hg.1 hr (hip ▸ hpref it hit)
  have hdmem : it.asUpdDoc r.id ∈ (sync_to_add_or_update db sp
      items).filter (fun d => !d.isNew) := by
    refine List.mem_filter.mpr ⟨?_, by
      simp [WalkItem.asUpdDoc, BatchDoc.isNew]⟩
    exact (mem_sync_to_add db sp items _).mpr
      ⟨it, hit, syncDocOf_upd db sp it r.mtime r.id hst hlook hm⟩
  obtain ⟨dw, hfw⟩ : ∃ dw, ((sync_to_add_or_update db sp items).filter
      (fun d => !d.isNew)).find? (fun d => d.targets r.id) = some dw := by
    have hsome : (((sync_to_add_or_update db sp items).filter
        (fun d => !d.isNew)).find? (fun d => d.targets r.id)).isSome :=
      List.find?_isSome.mpr ⟨it.asUpdDoc r.id, hdmem, by
        simp [WalkItem.asUpdDoc, BatchDoc.targets]⟩
    exact Option.isSome_iff_exists.mp hsome
  have htarw : dw.targets r.id = true := by
    have := List.find?_some hfw
    simpa using this
  obtain ⟨it', hit', hip', hst', hm', hdw⟩ :=
    upds_target_char db sp items hg dw
      (List.mem_of_find?_eq_some hfw) r hr htarw
  have hit'it : it' = it :=
    List.inj_on_of_nodup_map hnd hit' hit (by rw [hip', hip])
  subst hit'it
  unfold applyUpd
  rw [hfw, hdw]
  rfl

theorem sync_applyUpd_path (db : DB) (sp : String)
    (items : List WalkItem) (hg : goodDB db) (r : FileRecord)
    (hr : r ∈ db.files) :
    (applyUpd ((sync_to_add_or_update db sp items).filter
      (fun d => !d.isNew)) r).path = r.path := by
  unfold applyUpd
  cases hfw : ((sync_to_add_or_update db sp items).filter
      (fun d => !d.isNew)).find? (fun d => d.targets r.id) with
  | none => rfl
  | some dw =>
    have htarw : dw.targets r.id = true := by
      have := List.find?_some hfw
      simpa using this
    obtain ⟨it', hit', hip', -, -, hdw⟩ :=
      upds_target_char db sp items hg dw
        (List.mem_of_find?_eq_some hfw) r hr htarw
    rw [hdw]
    exact hip'

theorem sync_files_spec (db : DB) (sp : String) (items : List WalkItem)
    (hg : goodDB db) (hnd : (items.map WalkItem.path).Nodup)
    (hpref : ∀ it ∈ items, likeMatch sp it.path = true) :
    ∃ recs,
      (sync_changes db sp items).files =
        (db.files.filter (fun r =>
          !((sync_deleted_paths db sp items).contains r.path))).map
          (applyUpd ((sync_to_add_or_update db sp items).filter
            (fun d => !d.isNew))) ++ recs ∧
      recs.map recFields =
        ((sync_to_add_or_update db sp items).filter BatchDoc.isNew).map
          BatchDoc.fields ∧
      goodDB (sync_changes db sp items) := by
  have hg1 : goodDB (deleteWhere db (fun r =>
      (sync_deleted_paths db sp items).contains r.path)) :=
    deleteWhere_good db _ hg
  have hnd_new : (((sync_to_add_or_update db sp items).filter
      BatchDoc.isNew).map BatchDoc.docPath).Nodup :=
    (toAdd_paths_nodup db sp items hnd).sublist
      ((List.filter_sublist _).map _)
  have hnd_upd_paths : (((sync_to_add_or_update db sp items).filter
      (fun d => !d.isNew)).map BatchDoc.docPath).Nodup :=
    (toAdd_paths_nodup db sp items hnd).sublist
      ((List.filter_sublist _).map _)
  have hnd_upd : (((sync_to_add_or_update db sp items).filter
      (fun d => !d.isNew)).map BatchDoc.updId).Nodup := by
    refine nodup_map_of_nodup_map _ BatchDoc.docPath BatchDoc.updId
      hnd_upd_paths ?_
    intro x hx y hy hxy
    obtain ⟨itx, hitx, hstx, mx, ix, hlx, hmx, rfl⟩ :=
      mem_upds_char db sp items x hx
    obtain ⟨ity, hity, hsty, my, iy, hly, hmy, rfl⟩ :=
      mem_upds_char db sp items y hy
    obtain ⟨rx, hrx, -, hpx, -, hix⟩ :=
      dbFilesLookup_some db sp itx.path mx ix hlx
    obtain ⟨ry, hry, -, hpy, -, hiy⟩ :=
      dbFilesLookup_some db sp ity.path my iy hly
    have hxyid : ix = iy := by
      simpa [WalkItem.asUpdDoc, BatchDoc.updId] using hxy
    have hrxy : rx = ry :=
      id_injective db.files hg.2.1 rx ry hrx hry
        (hix.trans (hxyid.trans hiy.symm))
    show itx.path = ity.path
    rw [← hpx, ← hpy, hrxy]
  have hfresh : ∀ d ∈ (sync_to_add_or_update db sp items).filter
      BatchDoc.isNew, ∀ r ∈ (deleteWhere db (fun r =>
        (sync_deleted_paths db sp items).contains r.path)).files,
      r.path ≠ d.docPath := by
    intro d hd r hr
    obtain ⟨it, hit, hst, hl, rfl⟩ := mem_news_char db sp items d hd
    show r.path ≠ it.path
    intro hcon
    rw [deleteWhere_files] at hr
    have hrmem := (List.mem_filter.mp hr).1
    exact dbFilesLookup_none db sp it.path hl r hrmem
      (by rw [hcon]; exact hpref it hit) hcon
  have htgt : ∀ d ∈ (sync_to_add_or_update db sp items).filter
      (fun x => !x.isNew), ∃ r ∈ (deleteWhere db (fun r =>
        (sync_deleted_paths db sp items).contains r.path)).files,
      r.id = d.updId ∧ r.path = d.docPath := by
    intro d hd
    obtain ⟨it, hit, hst, m0, i, hl, hm, rfl⟩ :=
      mem_upds_char db sp items d hd
    obtain ⟨r', hr', hlike', hpath', hm0, hid'⟩ :=
      dbFilesLookup_some db sp it.path m0 i hl
    refine ⟨r', ?_, by
      rw [hid']
      rfl, by
      rw [hpath']
      rfl⟩
    rw [deleteWhere_files]
    refine List.mem_filter.mpr ⟨hr', ?_⟩
    refine sync_db1_keep db sp items r' ?_
    rw [hpath']
    exact hpath' ▸ List.mem_map_of_mem WalkItem.path hit
  obtain ⟨d1, recs, hok, hfiles, hfieldeq, hgood1, hips⟩ :=
    applyBatch_spec (deleteWhere db (fun r =>
      (sync_deleted_paths db sp items).contains r.path))
      (sync_to_add_or_update db sp items)
      hnd_new hfresh hnd_upd htgt hg1
  have hsync : sync_changes db sp items = d1 := by
    rw [sync_changes_eq, hok]
  refine ⟨recs, ?_, hfieldeq, ?_⟩
  · rw [hsync, hfiles, deleteWhere_files]
  · rw [hsync]
    exact hgood1

/-- Characterization of the stored, prefix-matched paths after one run
of sync_changes: they are exactly the walk entries that either statted
successfully or already had a stored record. -/
theorem sync_stored_iff (db : DB) (sp : String) (items : List WalkItem)
    (hg : goodDB db) (hnd : (items.map WalkItem.path).Nodup)
    (hpref : ∀ it ∈ items, likeMatch sp it.path = true) (p : String) :
    (∃ r ∈ (sync_changes db sp items).files,
        r.path = p ∧ likeMatch sp p = true) ↔
      (∃ it ∈ items, it.path = p ∧
        (it.statOk = true ∨ ∃ r0 ∈ db.files, r0.path = p)) := by
  obtain ⟨recs, hfiles, hfieldeq, hgood⟩ := sync_files_spec db sp items
    hg hnd hpref
  constructor
  · rintro ⟨r, hrmem, rfl, hlike⟩
    rw [hfiles] at hrmem
    rcases List.mem_append.mp hrmem with hmem | hmem
    · obtain ⟨r', hr', hupd⟩ := List.mem_map.mp hmem
      obtain ⟨hr'mem, hr'keep⟩ := List.mem_filter.mp hr'
      have hpath : r.path = r'.path := by
        rw [← hupd]
        exact sync_applyUpd_path db sp items hg r' hr'mem
      have hpin : r'.path ∈ items.map WalkItem.path := by
        by_contra hcon
        have hdel : r'.path ∈ sync_deleted_paths db sp items :=
          (sync_deleted_mem db sp items r'.path).mpr
            ⟨⟨r', hr'mem, by rw [← hpath]; exact hlike, rfl⟩, hcon⟩
        rw [Bool.not_eq_true', Bool.eq_false_iff] at hr'keep
        exact hr'keep ((contains_iff_mem' _ _).mpr hdel)
      obtain ⟨it, hit, hitp⟩ := List.mem_map.mp hpin
      exact ⟨it, hit, by rw [hitp, ← hpath],
        Or.inr ⟨r', hr'mem, hpath.symm⟩⟩
    · have hfmem : recFields r ∈
          ((sync_to_add_or_update db sp items).filter BatchDoc.isNew).map
            BatchDoc.fields := by
        rw [← hfieldeq]
        exact List.mem_map_of_mem recFields hmem
      obtain ⟨d, hd, hdf⟩ := List.mem_map.mp hfmem
      obtain ⟨it, hit, hst, hl, rfl⟩ := mem_news_char db sp items d hd
      have hpath : it.path = r.path := congrArg Prod.fst hdf
      exact ⟨it, hit, hpath, Or.inl hst⟩
  · rintro ⟨it, hit, rfl, hor⟩
    have hlike : likeMatch sp it.path = true := hpref it hit
    by_cases hex : ∃ r0 ∈ db.files, r0.path = it.path
    · obtain ⟨r0, hr0, hr0p⟩ := hex
      have hkeep : (!((sync_deleted_paths db sp items).contains
          r0.path)) = true :=
        sync_db1_keep db sp items r0
          (by rw [hr0p]; exact List.mem_map_of_mem WalkItem.path hit)
      refine ⟨applyUpd ((sync_to_add_or_update db sp items).filter
        (fun d => !d.isNew)) r0, ?_, ?_, hlike⟩
      · rw [hfiles]
        exact List.mem_append_left _ (List.mem_map_of_mem _
          (List.mem_filter.mpr ⟨hr0, hkeep⟩))
      · rw [sync_applyUpd_path db sp items hg r0 hr0]
        exact hr0p
    · have hst : it.statOk = true := by
        rcases hor with h | h
        · exact h
        · exact absurd h hex
      have hl : dbFilesLookup db sp it.path = none := by
        cases hl2 : dbFilesLookup db sp it.path with
        | none => rfl
        | some mi =>
          obtain ⟨m0, i⟩ := mi
          obtain ⟨r', hr', -, hp', -, -⟩ :=
            dbFilesLookup_some db sp it.path m0 i hl2
          exact absurd ⟨r', hr', hp'⟩ hex
      have hdoc : it.asNewDoc ∈ (sync_to_add_or_update db sp
          items).filter BatchDoc.isNew :=
        List.mem_filter.mpr
          ⟨(mem_sync_to_add db sp items _).mpr
            ⟨it, hit, syncDocOf_new db sp it hst hl⟩,
           by simp [WalkItem.asNewDoc, BatchDoc.isNew]⟩
      have hfmem : BatchDoc.fields it.asNewDoc ∈ recs.map recFields := by
        rw [hfieldeq]
        exact List.mem_map_of_mem BatchDoc.fields hdoc
      obtain ⟨rec, hrec, hrecf⟩ := List.mem_map.mp hfmem
      refine ⟨rec, ?_, congrArg Prod.fst hrecf, hlike⟩
      rw [hfiles]
      exact List.mem_append_right _ hrec

/-- After one run of sync_changes, every successfully statted walk
entry has a stored record at its path whose mtime is within the
tolerance of the entry's mtime. -/
theorem sync_final_record (db : DB) (sp : String)
    (items : List WalkItem) (hg : goodDB db)
    (hnd : (items.map WalkItem.path).Nodup)
    (hpref : ∀ it ∈ items, likeMatch sp it.path = true)
    (it : WalkItem) (hit : it ∈ items) (hst : it.statOk = true) :
    ∃ r1 ∈ (sync_changes db sp items).files, r1.path = it.path ∧
      (it.mtime - r1.mtime).natAbs ≤ 1 := by
  obtain ⟨recs, hfiles, hfieldeq, hgood⟩ := sync_files_spec db sp items
    hg hnd hpref
  by_cases hex : ∃ r0 ∈ db.files, r0.path = it.path
  · obtain ⟨r0, hr0, hr0p⟩ := hex
    have hkeep : (!((sync_deleted_paths db sp items).contains
        r0.path)) = true :=
      sync_db1_keep db sp items r0
        (by rw [hr0p]; exact List.mem_map_of_mem WalkItem.path hit)
    have hmemmap : applyUpd ((sync_to_add_or_update db sp items).filter
        (fun d => !d.isNew)) r0 ∈ (sync_changes db sp items).files := by
      rw [hfiles]
      exact List.mem_append_left _ (List.mem_map_of_mem _
        (List.mem_filter.mpr ⟨hr0, hkeep⟩))
    by_cases hm : (it.mtime - r0.mtime).natAbs > 1
    · rw [sync_applyUpd_change db sp items hg hnd hpref r0 hr0 it hit
        hr0p.symm hst hm] at hmemmap
      exact ⟨_, hmemmap, rfl, by simp⟩
    · have hnone : applyUpd ((sync_to_add_or_update db sp items).filter
          (fun d => !d.isNew)) r0 = r0 := by
        refine sync_applyUpd_no_change db sp items hg r0 hr0 ?_
        intro it'' hit'' hp'' hcon
        have : it'' = it := List.inj_on_of_nodup_map hnd hit'' hit
          (by rw [hp'', hr0p])
        subst this
        exact hm hcon.2
      rw [hnone] at hmemmap
      exact ⟨r0, hmemmap, hr0p, by omega⟩
  · have hl : dbFilesLookup db sp it.path = none := by
      cases hl2 : dbFilesLookup db sp it.path with
      | none => rfl
      | some mi =>
        obtain ⟨m0, i⟩ := mi
        obtain ⟨r', hr', -, hp', -, -⟩ :=
          dbFilesLookup_some db sp it.path m0 i hl2
        exact absurd ⟨r', hr', hp'⟩ hex
    have hdoc : it.asNewDoc ∈ (sync_to_add_or_update db sp
        items).filter BatchDoc.isNew :=
      List.mem_filter.mpr
        ⟨(mem_sync_to_add db sp items _).mpr
          ⟨it, hit, syncDocOf_new db sp it hst hl⟩,
         by simp [WalkItem.asNewDoc, BatchDoc.isNew]⟩
    have hfmem : BatchDoc.fields it.asNewDoc ∈ recs.map recFields := by
      rw [hfieldeq]
      exact List.mem_map_of_mem BatchDoc.fields hdoc
    obtain ⟨rec, hrec, hrecf⟩ := List.mem_map.mp hfmem
    have hrecmem : rec ∈ (sync_changes db sp items).files := by
      rw [hfiles]
      exact List.mem_append_right _ hrec
    have hmt : rec.mtime = it.mtime :=
      congrArg (fun x : String × String × String × Nat × Int =>
        x.2.2.2.2) hrecf
    exact ⟨rec, hrecmem, congrArg Prod.fst hrecf, by rw [hmt]; simp⟩

end SyncLemmas

section Claims

/-- C1: the claim asserts that removing root /data leaves the record at
/data2/file.txt unchanged because the comparison is on path-segment
boundaries.  The code compares with WHERE path LIKE root plus percent,
under sqlite LIKE semantics, so the raw-prefix record /data2/file.txt,
its ASCII case variant /DATA2/file.txt, and even /aXb/f.txt for the
root /a_b (whose underscore is a wildcard) are all deleted:
counterexample. -/
theorem C1_counterexample :
    (⟨1, "/data2/file.txt", "file.txt", "file", 5, 10⟩ : FileRecord) ∈
      dbBoundary.files ∧
    (⟨2, "/DATA2/file.txt", "FILE.TXT", "file", 5, 10⟩ : FileRecord) ∈
      dbBoundary.files ∧
    (remove_indexed_path dbBoundary "/data").files = [] ∧
    (clear_index dbBoundary (some "/data")).files = [] ∧
    (remove_indexed_path dbWild "/a_b").files = [] := by
  refine ⟨?_, ?_, ?_, ?_, ?_⟩ <;> decide

/-- C1 amended: remove_indexed_path and clear_index with a path delete
exactly the records whose path matches the sqlite LIKE pattern built as
the root followed by a percent sign; the match folds ASCII case and
treats percent and underscore characters of the root as wildcards, so
every raw-prefix match (such as /data2/file.txt for root /data), every
ASCII case variant (such as /DATA2/file.txt) and every wildcard
expansion (such as /aXb/f.txt for root /a_b) is deleted, and only
records whose paths do not match the pattern are left unchanged. -/
theorem C1_like_semantics (db : DB) (P : String) :
    (∀ r ∈ db.files, likeMatch P r.path = false →
      r ∈ (remove_indexed_path db P).files ∧
      r ∈ (clear_index db (some P)).files) ∧
    (∀ s ∈ (remove_indexed_path db P).files, likeMatch P s.path = false) ∧
    (∀ s ∈ (clear_index db (some P)).files, likeMatch P s.path = false) := by
  refine ⟨fun r hr hnp => ⟨?_, ?_⟩, fun s hs => ?_, fun s hs => ?_⟩
  · exact List.mem_filter.mpr ⟨hr, by simp [hnp]⟩
  · exact List.mem_filter.mpr ⟨hr, by simp [hnp]⟩
  · have := (List.mem_filter.mp hs).2
    simpa using this
  · have := (List.mem_filter.mp hs).2
    simpa using this

theorem C1_like_semantics_witness :
    (⟨1, "/other/f.txt", "f.txt", "file", 1, 0⟩ : FileRecord) ∈
      (remove_indexed_path dbUnrelated "/data").files ∧
    (⟨1, "/other/f.txt", "f.txt", "file", 1, 0⟩ : FileRecord) ∈
      (clear_index dbUnrelated (some "/data")).files :=
  (C1_like_semantics dbUnrelated "/data").1 _ (by decide) (by decide)

/-- C2: the claim asserts that a storage error during the batch is
surfaced to the caller.  On this input an error does occur, the store
is rolled back to its pre-call state (the successful first insert does
not survive), but add_documents_batch catches the exception, prints it
and returns normally, so nothing reaches the caller: counterexample to
the surfacing half of the claim. -/
theorem C2_counterexample :
    applyBatch dbDup docsDup = .error () ∧
    add_documents_batch dbDup docsDup = (dbDup, true) :=
  ⟨rfl, rfl⟩

/-- C2 amended: if any storage error occurs while applying the batch
the store is left exactly as it was before the call - no partial write
survives, even when earlier statements of the batch had succeeded -
but the error is only caught and printed, never raised or returned to
the caller; if no error occurs, the whole batch is applied inside one
committed transaction. -/
theorem C2_batch_rollback (db : DB) (docs : List BatchDoc) :
    ((add_documents_batch db docs).2 = true →
      (add_documents_batch db docs).1 = db) ∧
    ((add_documents_batch db docs).2 = false →
      applyBatch db docs = .ok (add_documents_batch db docs).1) := by
  unfold add_documents_batch
  cases applyBatch db docs with
  | ok d => exact ⟨fun h => (nomatch h), fun _ => rfl⟩
  | error e => exact ⟨fun _ => rfl, fun h => (nomatch h)⟩

theorem C2_batch_rollback_witness :
    (add_documents_batch dbDup docsDup).1 = dbDup :=
  (C2_batch_rollback dbDup docsDup).1 rfl

/-- C3: the claim asserts that after sync_changes the stored paths
under the root, including the record for the root itself, equal the
existing filesystem paths including the root, minus every entry whose
stat failed.  Counterexample: the walk of sync_changes never lists the
scanned root itself, so the root's own record is deleted even though
the root exists on disk, and a stat-failed entry that was already
stored is retained rather than subtracted.  Here the final stored
paths are exactly the stat-failed stored file and the healthy new
file - the root record is gone and bad.txt survives. -/
theorem C3_counterexample :
    walkItems "/r" fsTree3 =
      [⟨"/r/a.txt", "a.txt", false, 5, 60, true⟩,
       ⟨"/r/bad.txt", "bad.txt", false, 7, 70, false⟩] ∧
    (⟨1, "/r", "r", "folder", 0, 50⟩ : FileRecord) ∈ dbSync3.files ∧
    (sync_changes_fs dbSync3 "/r" fsTree3).files.map FileRecord.path =
      ["/r/bad.txt", "/r/a.txt"] :=
  ⟨rfl, List.mem_cons_self _ _, rfl⟩

/-- C3 amended: after sync_changes the set of stored paths matching
the raw root prefix equals the set of paths the walk listed under the
root (the root itself is never listed and its record is never kept)
where the entry either statted successfully or was already stored:
entries that fail to stat are subtracted only when they were not
already stored - a stat-failed entry with an existing record is
retained. -/
theorem C3_sync_consistency (db : DB) (sp : String)
    (items : List WalkItem) (hg : goodDB db)
    (hnd : (items.map WalkItem.path).Nodup)
    (hpref : ∀ it ∈ items, likeMatch sp it.path = true) (p : String) :
    (∃ r ∈ (sync_changes db sp items).files,
        r.path = p ∧ likeMatch sp p = true) ↔
      (∃ it ∈ items, it.path = p ∧
        (it.statOk = true ∨ ∃ r0 ∈ db.files, r0.path = p)) :=
  sync_stored_iff db sp items hg hnd hpref p

theorem C3_sync_consistency_witness :
    ∃ r ∈ (sync_changes_fs dbSync3 "/r" fsTree3).files,
      r.path = "/r/a.txt" ∧ likeMatch "/r" "/r/a.txt" = true :=
  (C3_sync_consistency dbSync3 "/r" (walkItems "/r" fsTree3)
    (by decide) (by decide) (by decide) "/r/a.txt").mpr
    ⟨⟨"/r/a.txt", "a.txt", false, 5, 60, true⟩, by decide, rfl,
      Or.inl rfl⟩

/-- C4: running sync_changes twice over the same walk performs zero
insertions, updates and deletions on the second run: both write sets
of the second call are empty and the store is unchanged. -/
theorem C4_sync_idempotent (db : DB) (sp : String)
    (items : List WalkItem) (hg : goodDB db)
    (hnd : (items.map WalkItem.path).Nodup)
    (hpref : ∀ it ∈ items, likeMatch sp it.path = true) :
    sync_to_add_or_update (sync_changes db sp items) sp items = [] ∧
    sync_deleted_paths (sync_changes db sp items) sp items = [] ∧
    sync_changes (sync_changes db sp items) sp items =
      sync_changes db sp items := by
  obtain ⟨recs, hfiles, hfieldeq, hgood⟩ := sync_files_spec db sp items
    hg hnd hpref
  have hdel : sync_deleted_paths (sync_changes db sp items) sp
      items = [] := by
    unfold sync_deleted_paths
    refine List.filter_eq_nil_iff.mpr fun p hp => ?_
    obtain ⟨r, hr, rfl⟩ := List.mem_map.mp hp
    obtain ⟨hrmem, hrlike⟩ := List.mem_filter.mp hr
    obtain ⟨it, hit, hitp, -⟩ :=
      (sync_stored_iff db sp items hg hnd hpref r.path).mp
        ⟨r, hrmem, rfl, hrlike⟩
    have hmemp : r.path ∈ items.map WalkItem.path :=
      hitp ▸ List.mem_map_of_mem WalkItem.path hit
    rw [(contains_iff_mem' (items.map WalkItem.path) r.path).mpr hmemp]
    decide
  have htoadd : sync_to_add_or_update (sync_changes db sp items) sp
      items = [] := by
    unfold sync_to_add_or_update
    refine List.filterMap_eq_nil_iff.mpr fun it hit => ?_
    by_cases hst : it.statOk = true
    · obtain ⟨r1, hr1mem, hr1path, hr1tol⟩ :=
        sync_final_record db sp items hg hnd hpref it hit hst
      have hlook : dbFilesLookup (sync_changes db sp items) sp
          it.path = some (r1.mtime, r1.id) := by
        rw [← hr1path]
        exact dbFilesLookup_of_mem _ sp r1 hgood.1 hr1mem
          (by rw [hr1path]; exact hpref it hit)
      exact syncDocOf_skip _ sp it r1.mtime r1.id hst hlook (by omega)
    · exact syncDocOf_statFail _ sp it (by simpa using hst)
  refine ⟨htoadd, hdel, ?_⟩
  rw [sync_changes_eq, htoadd, hdel, deleteWhere_nilpred, applyBatch_nil]

theorem C4_sync_idempotent_witness :
    sync_to_add_or_update (sync_changes_fs dbSync3 "/r" fsTree3) "/r"
      (walkItems "/r" fsTree3) = [] ∧
    sync_deleted_paths (sync_changes_fs dbSync3 "/r" fsTree3) "/r"
      (walkItems "/r" fsTree3) = [] ∧
    sync_changes (sync_changes_fs dbSync3 "/r" fsTree3) "/r"
      (walkItems "/r" fsTree3) = sync_changes_fs dbSync3 "/r" fsTree3 :=
  C4_sync_idempotent dbSync3 "/r" (walkItems "/r" fsTree3)
    (by decide) (by decide) (by decide)

/-- C7: for a walk entry present both on disk (with a successful stat)
and in the store, a modification-time drift of at most one second
produces no batch element for the path and leaves the stored record
untouched, while a drift of strictly more than one second produces the
6-tuple update carrying the stored id and rewrites the record in place
with the fresh metadata under the same id. -/
theorem C7_mtime_tolerance (db : DB) (sp : String)
    (items : List WalkItem) (hg : goodDB db)
    (hnd : (items.map WalkItem.path).Nodup)
    (hpref : ∀ it ∈ items, likeMatch sp it.path = true)
    (it : WalkItem) (hit : it ∈ items) (hst : it.statOk = true)
    (r0 : FileRecord) (hr0 : r0 ∈ db.files) (hp : r0.path = it.path) :
    ((it.mtime - r0.mtime).natAbs ≤ 1 →
      (∀ d ∈ sync_to_add_or_update db sp items, d.docPath ≠ it.path) ∧
      r0 ∈ (sync_changes db sp items).files) ∧
    (1 < (it.mtime - r0.mtime).natAbs →
      it.asUpdDoc r0.id ∈ sync_to_add_or_update db sp items ∧
      ∃ r1 ∈ (sync_changes db sp items).files, r1.id = r0.id ∧
        r1.path = it.path ∧ r1.name = it.name ∧
        r1.mtime = it.mtime) := by
  obtain ⟨recs, hfiles, hfieldeq, hgood⟩ := sync_files_spec db sp items
    hg hnd hpref
  have hlook : dbFilesLookup db sp it.path = some (r0.mtime, r0.id) := by
    rw [← hp]
    exact dbFilesLookup_of_mem db sp r0 hg.1 hr0
      (by rw [hp]; exact hpref it hit)
  have hkeep : (!((sync_deleted_paths db sp items).contains
      r0.path)) = true :=
    sync_db1_keep db sp items r0
      (by rw [hp]; exact List.mem_map_of_mem WalkItem.path hit)
  have hmemmap : applyUpd ((sync_to_add_or_update db sp items).filter
      (fun d => !d.isNew)) r0 ∈ (sync_changes db sp items).files := by
    rw [hfiles]
    exact List.mem_append_left _ (List.mem_map_of_mem _
      (List.mem_filter.mpr ⟨hr0, hkeep⟩))
  constructor
  · intro htol
    constructor
    · intro d hd hcon
      obtain ⟨it', hit', hdoc⟩ := (mem_sync_to_add db sp items d).mp hd
      have hpath' : d.docPath = it'.path := syncDocOf_path db sp it' d hdoc
      have : it' = it := List.inj_on_of_nodup_map hnd hit' hit
        (by rw [← hpath', hcon])
      subst this
      obtain ⟨-, hcase⟩ := syncDocOf_cases db sp it' d hdoc
      rcases hcase with ⟨hl, -⟩ | ⟨m0, i, hl, hm, -⟩
      · rw [hlook] at hl; cases hl
      · rw [hlook] at hl
        have h1 : m0 = r0.mtime := (congrArg Prod.fst
          (Option.some.inj hl)).symm
        rw [h1] at hm
        omega
    · have hnone : applyUpd ((sync_to_add_or_update db sp items).filter
          (fun d => !d.isNew)) r0 = r0 := by
        refine sync_applyUpd_no_change db sp items hg r0 hr0 ?_
        intro it'' hit'' hp'' hcon
        have : it'' = it := List.inj_on_of_nodup_map hnd hit'' hit
          (by rw [hp'', hp])
        subst this
        omega
      rw [hnone] at hmemmap
      exact hmemmap
  · intro hm
    constructor
    · exact (mem_sync_to_add db sp items _).mpr
        ⟨it, hit, syncDocOf_upd db sp it r0.mtime r0.id hst hlook hm⟩
    · rw [sync_applyUpd_change db sp items hg hnd hpref r0 hr0 it hit
        hp.symm hst hm] at hmemmap
      exact ⟨_, hmemmap, rfl, rfl, rfl, rfl⟩

theorem C7_mtime_tolerance_witness :
    ((∀ d ∈ sync_to_add_or_update dbTol "/r" (walkItems "/r" fsTreeTol),
        d.docPath ≠ "/r/x.txt") ∧
      (⟨1, "/r/x.txt", "x.txt", "file", 4, 60⟩ : FileRecord) ∈
        (sync_changes dbTol "/r" (walkItems "/r" fsTreeTol)).files) ∧
    (WalkItem.asUpdDoc 2 ⟨"/r/y.txt", "y.txt", false, 9, 100, true⟩ ∈
        sync_to_add_or_update dbTol "/r" (walkItems "/r" fsTreeTol) ∧
      ∃ r1 ∈ (sync_changes dbTol "/r"
          (walkItems "/r" fsTreeTol)).files,
        r1.id = 2 ∧ r1.path = "/r/y.txt" ∧ r1.name = "y.txt" ∧
          r1.mtime = 100) := by
  have hx := C7_mtime_tolerance dbTol "/r" (walkItems "/r" fsTreeTol)
    (by decide) (by decide) (by decide)
    ⟨"/r/x.txt", "x.txt", false, 4, 61, true⟩ (by decide) rfl
    ⟨1, "/r/x.txt", "x.txt", "file", 4, 60⟩ (by decide) rfl
  have hy := C7_mtime_tolerance dbTol "/r" (walkItems "/r" fsTreeTol)
    (by decide) (by decide) (by decide)
    ⟨"/r/y.txt", "y.txt", false, 9, 100, true⟩ (by decide) rfl
    ⟨2, "/r/y.txt", "y.txt", "file", 9, 50⟩ (by decide) rfl
  exact ⟨hx.1 (by decide), hy.2 (by decide)⟩

/-- C5: the claim asserts the one-entry-per-record full-text invariant
after every mutation.  Counterexample trace: batch insert of five
records, a replacing add_document (whose implicit delete bypasses the
delete trigger, leaving a stale association for rowid 5), a delete,
and a fresh insert that reuses rowid 5 with the original name; the
final store satisfies every per-step sqlite constraint yet record 5
has two full-text associations with its id and current name. -/
theorem C5_counterexample :
    c5db4.files.filter (fun r => r.id == 5) =
      [⟨5, "/r/p6", "echo", "file", 30, 300⟩] ∧
    c5db4.files_fts.filter (fun e => e.1 == 5) =
      [(5, "echo"), (5, "echo")] ∧
    ¬ ftsInvariant c5db4 := by
  refine ⟨rfl, rfl, ?_⟩
  intro h
  have h5 := h ⟨5, "/r/p6", "echo", "file", 30, 300⟩ (by decide)
  exact absurd h5 (by decide)

/-- C5 amended: the full-text invariant holds after every mutation of
the store provided add_document is only invoked on paths that have no
stored record (as the scanner and synchronizer guarantee); a replacing
add_document is the one mutation that breaks it.  Formally: a
well-formed store satisfies the invariant, and well-formedness is
preserved by add_document on fresh paths, add_documents_batch (both on
commit and on rollback), delete_document, sync_changes, clear_index
and remove_indexed_path. -/
theorem C5_fts_invariant (db : DB) (hg : goodDB db) :
    ftsInvariant db ∧
    (∀ p n t s m, (∀ r ∈ db.files, r.path ≠ p) →
      goodDB (add_document db p n t s m)) ∧
    (∀ docs, goodDB (add_documents_batch db docs).1) ∧
    (∀ p, goodDB (delete_document db p)) ∧
    (∀ sp items, goodDB (sync_changes db sp items)) ∧
    (∀ op, goodDB (clear_index db op)) ∧
    (∀ p, goodDB (remove_indexed_path db p)) :=
  ⟨goodDB_ftsInvariant db hg,
   fun p n t s m hf => add_document_fresh_good db p n t s m hg hf,
   fun docs => add_documents_batch_good db docs hg,
   fun p => delete_document_good db p hg,
   fun sp items => sync_changes_good db sp items hg,
   fun op => clear_index_good db op hg,
   fun p => remove_indexed_path_good db p hg⟩

theorem C5_fts_invariant_witness :
    ftsInvariant dbSmall ∧
    goodDB (delete_document dbSmall "/a/x") ∧
    goodDB (add_document dbSmall "/a/y" "y" "file" 2 6) := by
  have h := C5_fts_invariant dbSmall (by decide)
  exact ⟨h.1, h.2.2.2.1 "/a/x", h.2.1 "/a/y" "y" "file" 2 6 (by decide)⟩

/-- C6: the claim asserts that an empty or whitespace-only query
returns an empty result without error.  The method has no such guard:
it turns the empty query into the match text consisting of a bare
star, which the full-text engine rejects, raising an OperationalError:
counterexample. -/
theorem C6_counterexample :
    search dbSmall "" none = .error () ∧
    search dbSmall "   " (some 5) = .error () :=
  ⟨rfl, rfl⟩

/-- C6 amended: for every query that is empty or consists only of
whitespace, search raises a query-syntax error from the full-text
engine instead of returning a result; the empty-query guard that
returns an empty list lives in the UI search worker, not in this
method. -/
theorem C6_whitespace_query_raises (db : DB) (lim : Option Int)
    (q : String) (h : ∀ c ∈ q.toList, c.isWhitespace = true) :
    search db q lim = .error () := by
  unfold search
  rw [parseQuery_whitespace q h]

theorem C6_whitespace_query_raises_witness :
    search dbSmall " " none = .error () :=
  C6_whitespace_query_raises dbSmall none " " (by decide)

/-- C9: a create or modify event re-stats its path after the settling
delay; if the path no longer exists the event is dropped as a silent
no-op, otherwise exactly one record for the path is stored, carrying
the freshly statted metadata, and records at other paths are kept. -/
theorem C9_event_settling (db : DB) (fs : String → Option StatInfo)
    (path : String) :
    (fs path = none → on_created db fs path = db) ∧
    (∀ st, fs path = some st →
      (on_created db fs path).files.filter (fun r => r.path == path) =
        [⟨nextId db, path, basename path,
          if st.isDir then "folder" else "file",
          if st.isDir then 0 else st.size, st.mtime⟩] ∧
      ∀ r ∈ db.files, r.path ≠ path →
        r ∈ (on_created db fs path).files) := by
  constructor
  · intro h
    exact add_item_action_none db fs path h
  · intro st h
    rw [show on_created db fs path = add_item_action db fs path from rfl,
      add_item_action_some db fs path st h]
    unfold add_document
    constructor
    · rw [List.filter_append, List.filter_filter]
      have h1 : db.files.filter
          (fun r => r.path == path && !(r.path == path)) = [] :=
        List.filter_eq_nil_iff.mpr (fun r _ => by simp)
      rw [h1]
      simp
    · intro r hr hne
      exact List.mem_append_left _
        (List.mem_filter.mpr ⟨hr, by simpa using hne⟩)

theorem C9_event_settling_witness :
    on_created dbSmall (fun _ => none) "/a/y" = dbSmall ∧
    (on_created dbSmall
      (fun p => if p == "/a/y" then some ⟨false, 7, 9⟩ else none)
      "/a/y").files.filter (fun r => r.path == "/a/y") =
      [⟨2, "/a/y", "y", "file", 7, 9⟩] := by
  constructor
  · exact (C9_event_settling dbSmall (fun _ => none) "/a/y").1 rfl
  · have h := (C9_event_settling dbSmall
      (fun p => if p == "/a/y" then some ⟨false, 7, 9⟩ else none)
      "/a/y").2 ⟨false, 7, 9⟩ rfl
    exact h.1

/-- C8: a move event first deletes the record at the source path and
then runs the create/modify upsert logic for the destination;
afterwards no stored record (hence no search result) carries the
source path, and a search matching the new name returns exactly one
record at the destination, carrying the size and type the entry had
before the move (the moved filesystem entry keeps its size and file
kind, stated as hypotheses on the fresh stat). -/
theorem C8_move_event (db : DB) (fs : String → Option StatInfo)
    (src dest q : String) (terms : List String) (st : StatInfo)
    (r0 : FileRecord) (lim : Option Int)
    (hg : goodDB db)
    (hr0 : r0 ∈ db.files) (hr0p : r0.path = src)
    (hdest : ∀ r ∈ db.files, r.path ≠ dest)
    (hne : src ≠ dest)
    (hfs : fs dest = some st)
    (hdir : st.isDir = false) (htype : r0.type = "file")
    (hsize : st.size = r0.size)
    (hq : parseQuery q = .ok terms)
    (hmatch : termsMatch terms (tokenize (basename dest)) = true)
    (hothers : ∀ r ∈ db.files, r.path ≠ src →
      termsMatch terms (tokenize r.name) = false) :
    on_moved db fs src dest =
      add_document (delete_document db src) dest (basename dest)
        "file" st.size st.mtime ∧
    (∀ r ∈ (on_moved db fs src dest).files, r.path ≠ src) ∧
    search (on_moved db fs src dest) q lim =
      .ok [⟨nextId (delete_document db src), dest, basename dest,
        r0.type, r0.size, st.mtime⟩] := by
  have hstep : on_moved db fs src dest =
      add_document (delete_document db src) dest (basename dest)
        "file" st.size st.mtime := by
    rw [show on_moved db fs src dest =
      add_item_action (delete_document db src) fs dest from rfl]
    rw [add_item_action_some _ fs dest st hfs, hdir]
    rfl
  set db1 := delete_document db src with hdb1
  have hdb1files : db1.files = db.files.filter (fun r => !(r.path == src)) :=
    rfl
  have hdb1mem : ∀ r ∈ db1.files, r ∈ db.files ∧ r.path ≠ src := by
    intro r hr
    rw [hdb1files] at hr
    obtain ⟨h1, h2⟩ := List.mem_filter.mp hr
    exact ⟨h1, by simpa using h2⟩
  have hg1 : goodDB db1 := delete_document_good db src hg
  have hfresh : ∀ r ∈ db1.files, r.path ≠ dest :=
    fun r hr => hdest r (hdb1mem r hr).1
  have hfilter : db1.files.filter (fun r => !(r.path == dest)) = db1.files :=
    List.filter_eq_self.mpr (fun r hr => by simpa using hfresh r hr)
  have hdb2files : (add_document db1 dest (basename dest) "file"
      st.size st.mtime).files =
      db1.files ++ [⟨nextId db1, dest, basename dest, "file",
        st.size, st.mtime⟩] := by
    unfold add_document
    rw [hfilter]
  have hg2 : goodDB (add_document db1 dest (basename dest) "file"
      st.size st.mtime) :=
    add_document_fresh_good db1 dest (basename dest) "file"
      st.size st.mtime hg1 hfresh
  refine ⟨hstep, ?_, ?_⟩
  · intro r hr
    rw [hstep, hdb2files] at hr
    rcases List.mem_append.mp hr with h | h
    · exact (hdb1mem r h).2
    · rw [List.mem_singleton.mp h]
      exact fun hcon => hne hcon.symm
  · rw [hstep, search_of_good _ q lim terms hg2 hq, hdb2files,
      List.filter_append]
    have hnil : db1.files.filter
        (fun r => termsMatch terms (tokenize r.name)) = [] :=
      List.filter_eq_nil_iff.mpr (fun r hr => by
        have := hothers r (hdb1mem r hr).1 (hdb1mem r hr).2
        simp [this])
    have hone : List.filter (fun r => termsMatch terms (tokenize r.name))
        [(⟨nextId db1, dest, basename dest, "file", st.size, st.mtime⟩ :
          FileRecord)] =
        [⟨nextId db1, dest, basename dest, "file", st.size, st.mtime⟩] := by
      rw [List.filter_cons, if_pos (by simpa using hmatch)]
      rfl
    rw [hnil, hone, List.nil_append, applyLimit_singleton]
    rw [htype, hsize]

theorem C8_move_event_witness :
    (∀ r ∈ (on_moved dbMove fsMove "/r/notes.txt" "/r/notes2.txt").files,
      r.path ≠ "/r/notes.txt") ∧
    search (on_moved dbMove fsMove "/r/notes.txt" "/r/notes2.txt")
      "notes2" none =
      .ok [⟨2, "/r/notes2.txt", "notes2.txt", "file", 120, 200⟩] := by
  have h := C8_move_event dbMove fsMove "/r/notes.txt" "/r/notes2.txt"
    "notes2" ["notes2"] ⟨false, 120, 200⟩
    ⟨2, "/r/notes.txt", "notes.txt", "file", 120, 100⟩ none
    (by decide) (by decide) rfl (by decide) (by decide) rfl rfl rfl rfl
    rfl (by decide) (by decide)
  exact ⟨h.2.1, h.2.2⟩

/-- C10: search with limit 0 does not truncate the result: the LIMIT
clause is only added when the limit argument is truthy, so limit 0
behaves exactly like passing no limit and every matching record is
returned. -/
theorem C10_limit_zero (db : DB) (q : String) :
    search db q (some 0) = search db q none := by
  unfold search
  cases hp : parseQuery q with
  | error e => rfl
  | ok terms => simp [applyLimit]

end Claims

end PyEverything
